import Mathlib

/-!
# Verification of the mcp-rag-server indexing and retrieval engine

Shallow embedding of the core of `mcp-rag-server` (TypeScript): the chunker,
the overlap clamp in the `Indexer` constructor, the similarity-search handler,
the persistence layer (save/load with base64-encoded little-endian float32
embeddings), the path-safety check, the incremental updater, and the PDF
read-from-cache path.  Text is modelled as `List Char` (JS strings are
indexed by code units; for the properties proved here the distinction is
immaterial).  JS numbers appearing as sizes/indices are modelled as `Int`
(they are integral in every reachable state), and `Float32Array` embeddings
are modelled by their underlying 32-bit words (`List Nat`, each `< 2^32`),
which is exact because persistence round-trips them byte-for-byte.
-/

open scoped List

namespace RagServer

/-! ## Chunker (`Indexer.splitChunks`, src/indexer.ts)

```ts
const out: string[] = [];
let i = 0;
while (i < text.length) {
  out.push(text.slice(i, i + size));
  i += Math.max(1, size - overlap);
}
return out;
```

`text.slice(i, i + size)` is `(text.drop i).take size`; the loop advance
`Math.max(1, size - overlap)` is `max 1 (size - overlap)`, where JS's
negative `size - overlap` (overlap > size) is clipped to 1 exactly as
truncated `Nat` subtraction followed by `max 1` is.  The loop is written
with explicit structural fuel (so that the kernel can evaluate it on
concrete inputs); `splitChunksGo_eq` proves the loop equation, and every
property below is derived from that equation alone. -/

/-- The per-iteration advance of the chunker loop: `Math.max(1, size - overlap)`. -/
def chunkStep (size overlap : Nat) : Nat := max 1 (size - overlap)

theorem one_le_chunkStep (size overlap : Nat) : 1 ≤ chunkStep size overlap :=
  Nat.le_max_left 1 _

/-- The chunker while-loop, on explicit fuel (any fuel covering the remaining
length gives the same value, see `splitChunksF_congr`). -/
def splitChunksF (text : List Char) (size overlap : Nat) : Nat → Nat → List (List Char)
  | _, 0 => []
  | i, fuel + 1 =>
    if i < text.length then
      ((text.drop i).take size) :: splitChunksF text size overlap (i + chunkStep size overlap) fuel
    else []

/-- The chunker loop of `Indexer.splitChunks`, with the loop variable `i` explicit. -/
def splitChunksGo (text : List Char) (size overlap i : Nat) : List (List Char) :=
  splitChunksF text size overlap i (text.length - i + 1)

/-- `Indexer.splitChunks(text, size, overlap)` (defaults in the source: 800, 120). -/
def splitChunks (text : List Char) (size overlap : Nat) : List (List Char) :=
  splitChunksGo text size overlap 0

theorem splitChunksF_congr (text : List Char) (size overlap : Nat) :
    ∀ f g i, text.length ≤ i + f → text.length ≤ i + g →
      splitChunksF text size overlap i f = splitChunksF text size overlap i g := by
  intro f
  induction f with
  | zero =>
    intro g i hf hg
    cases g with
    | zero => rfl
    | succ g =>
      have h : ¬ i < text.length := by omega
      simp [splitChunksF, h]
  | succ f ih =>
    intro g i hf hg
    cases g with
    | zero =>
      have h : ¬ i < text.length := by omega
      simp [splitChunksF, h]
    | succ g =>
      by_cases h : i < text.length
      · have hs := one_le_chunkStep size overlap
        simp only [splitChunksF, h, if_true]
        rw [ih g (i + chunkStep size overlap) (by omega) (by omega)]
      · simp [splitChunksF, h]

/-- The loop equation for `splitChunksGo`: this is the faithful transcription
of the `while` loop in `Indexer.splitChunks`. -/
theorem splitChunksGo_eq (text : List Char) (size overlap i : Nat) :
    splitChunksGo text size overlap i =
      if i < text.length then
        ((text.drop i).take size) ::
          splitChunksGo text size overlap (i + chunkStep size overlap)
      else [] := by
  by_cases h : i < text.length
  · have hs := one_le_chunkStep size overlap
    rw [if_pos h]
    unfold splitChunksGo
    conv_lhs => rw [splitChunksF]
    rw [if_pos h]
    congr 1
    exact splitChunksF_congr text size overlap (text.length - i)
      (text.length - (i + chunkStep size overlap) + 1) (i + chunkStep size overlap)
      (by omega) (by omega)
  · rw [if_neg h]
    unfold splitChunksGo
    conv_lhs => rw [splitChunksF]
    rw [if_neg h]

/-- Number of iterations the chunker loop performs when started at `i`. -/
def chunkCountGo (L size overlap i : Nat) : Nat :=
  if i < L then chunkCountGo L size overlap (i + chunkStep size overlap) + 1 else 0
termination_by L - i
decreasing_by
  have h1 : 1 ≤ chunkStep size overlap := one_le_chunkStep size overlap
  omega

theorem chunkCountGo_eq (L size overlap i : Nat) :
    chunkCountGo L size overlap i =
      if i < L then chunkCountGo L size overlap (i + chunkStep size overlap) + 1 else 0 := by
  rw [chunkCountGo]

/-- The chunker loop started at `i` produces exactly the windows
`(text.drop (i + k*step)).take size` for `k` ranging over the iteration count. -/
theorem splitChunksGo_eq_map_range (text : List Char) (size overlap : Nat) :
    ∀ i, splitChunksGo text size overlap i =
      (List.range (chunkCountGo text.length size overlap i)).map
        (fun k => (text.drop (i + k * chunkStep size overlap)).take size) := by
  suffices H : ∀ n i, text.length - i ≤ n → splitChunksGo text size overlap i =
      (List.range (chunkCountGo text.length size overlap i)).map
        (fun k => (text.drop (i + k * chunkStep size overlap)).take size) by
    intro i
    exact H (text.length - i) i le_rfl
  intro n
  induction n with
  | zero =>
    intro i hi
    have h : ¬ i < text.length := by omega
    rw [splitChunksGo_eq, chunkCountGo_eq]
    simp [h]
  | succ n ih =>
    intro i hi
    rw [splitChunksGo_eq, chunkCountGo_eq]
    by_cases h : i < text.length
    · simp only [h, if_true]
      rw [List.range_succ_eq_map]
      simp only [List.map_cons, List.map_map]
      have hs := one_le_chunkStep size overlap
      congr 1
      · simp
      · rw [ih (i + chunkStep size overlap) (by omega)]
        apply List.map_congr_left
        intro k _
        simp only [Function.comp_apply]
        congr 2
        rw [Nat.succ_eq_add_one]
        ring
    · simp [h]

/-- Iteration-count characterisation: the `k`-th window exists iff its start
position `i + k*step` is inside the text. -/
theorem lt_chunkCountGo_iff (L size overlap : Nat) :
    ∀ i k, k < chunkCountGo L size overlap i ↔ i + k * chunkStep size overlap < L := by
  suffices H : ∀ n i, L - i ≤ n → ∀ k,
      k < chunkCountGo L size overlap i ↔ i + k * chunkStep size overlap < L by
    intro i k
    exact H (L - i) i le_rfl k
  intro n
  induction n with
  | zero =>
    intro i hi k
    have h : ¬ i < L := by omega
    rw [chunkCountGo_eq]
    simp only [h, if_false]
    constructor
    · intro hk
      omega
    · intro hk
      omega
  | succ n ih =>
    intro i hi k
    rw [chunkCountGo_eq]
    by_cases h : i < L
    · simp only [h, if_true]
      cases k with
      | zero => simpa using h
      | succ k =>
        have hs := one_le_chunkStep size overlap
        rw [Nat.succ_lt_succ_iff, ih (i + chunkStep size overlap) (by omega) k]
        have hmul : (k + 1) * chunkStep size overlap
            = k * chunkStep size overlap + chunkStep size overlap := by ring
        omega
    · simp only [h, if_false]
      have hk : ¬ i + k * chunkStep size overlap < L := by omega
      simpa using hk

theorem length_splitChunksGo (text : List Char) (size overlap i : Nat) :
    (splitChunksGo text size overlap i).length = chunkCountGo text.length size overlap i := by
  rw [splitChunksGo_eq_map_range]
  simp

/-- **C1 (amended), claim theorem.**  For `0 < S` and `O < S`,
`splitChunks t S O` is exactly the sequence of windows whose `i`-th element is
the substring of `t` starting at `i*(S-O)` and extending at most `S`
characters: a window at index `i` exists iff `i*(S-O) < |t|`; each window has
length `min S (|t| - i*(S-O))`, so every window has at most `S` characters and
a window is shorter than `S` exactly when it reaches the end of the text
(there may be several such trailing windows, not just the last).  Empty text
gives the empty sequence, and the result is the one-element sequence `[t]`
when the whole text fits in a single stride, `0 < |t| ≤ S - O` — not for all
`|t| ≤ S`, as the unamended claim stated. -/
theorem splitChunks_windows (t : List Char) (S O : Nat) (hS : 0 < S) (hO : O < S) :
    (∀ i : Nat, i < (splitChunks t S O).length ↔ i * (S - O) < t.length)
    ∧ (∀ i (h : i < (splitChunks t S O).length),
        (splitChunks t S O).get ⟨i, h⟩ = (t.drop (i * (S - O))).take S)
    ∧ (∀ i (h : i < (splitChunks t S O).length),
        ((splitChunks t S O).get ⟨i, h⟩).length = min S (t.length - i * (S - O)))
    ∧ (t = [] → splitChunks t S O = [])
    ∧ (0 < t.length → t.length ≤ S - O → splitChunks t S O = [t]) := by
  have hstep : chunkStep S O = S - O := by
    unfold chunkStep
    omega
  have hmap := splitChunksGo_eq_map_range t S O 0
  rw [hstep] at hmap
  simp only [Nat.zero_add] at hmap
  have hlen : ∀ i : Nat, i < (splitChunks t S O).length ↔ i * (S - O) < t.length := by
    intro i
    unfold splitChunks
    rw [length_splitChunksGo]
    rw [lt_chunkCountGo_iff, hstep]
    omega
  have hget : ∀ i (h : i < (splitChunks t S O).length),
      (splitChunks t S O).get ⟨i, h⟩ = (t.drop (i * (S - O))).take S := by
    intro i h
    unfold splitChunks at h ⊢
    simp only [List.get_eq_getElem]
    rw [List.getElem_of_eq hmap]
    simp only [List.getElem_map, List.getElem_range]
  refine ⟨hlen, hget, ?_, ?_, ?_⟩
  · intro i h
    rw [hget i h]
    simp only [List.length_take, List.length_drop]
  · intro ht
    subst ht
    unfold splitChunks
    rw [splitChunksGo_eq]
    simp
  · intro hpos hle
    have hc1 : chunkCountGo t.length S O (S - O) = 0 := by
      rw [chunkCountGo_eq]
      have h : ¬ S - O < t.length := by omega
      simp [hstep, h]
    have hc : chunkCountGo t.length S O 0 = 1 := by
      rw [chunkCountGo_eq]
      simp only [hpos, if_true, hstep, Nat.zero_add]
      rw [hc1]
    unfold splitChunks
    rw [hmap, hc]
    simp only [List.range_succ, List.range_zero, List.nil_append, List.map_cons,
      List.map_nil, Nat.zero_mul, List.drop_zero]
    rw [List.take_of_length_le (by omega)]

/-- Witness for C1: a concrete instantiation of `splitChunks_windows`. -/
theorem splitChunks_windows_witness :
    (0 : Nat) < 10 ∧ (3 : Nat) < 10 ∧ splitChunks ("abcdef".data) 10 3 = ["abcdef".data] := by
  refine ⟨by decide, by decide, ?_⟩
  exact (splitChunks_windows ("abcdef".data) 10 3 (by decide) (by decide)).2.2.2.2
    (by decide) (by decide)

/-- **C1 counterexample.**  The claim asserts that for `0 < |t| ≤ S` the chunker
returns exactly `[t]`, and that only the last window may be shorter than `S`.
With `t = "abcde"`, `S = 10`, `O = 9` (`0 < S`, `0 ≤ O < S`, `0 < |t| ≤ S`)
the stride is `1` and the code returns five windows, of which the middle ones
are already shorter than `S`. -/
theorem splitChunks_claim_counterexample :
    0 < 10 ∧ 9 < 10 ∧ 0 < ("abcde".data).length ∧ ("abcde".data).length ≤ 10
    ∧ splitChunks ("abcde".data) 10 9 =
        ["abcde".data, "bcde".data, "cde".data, "de".data, "e".data]
    ∧ splitChunks ("abcde".data) 10 9 ≠ ["abcde".data] := by
  refine ⟨by decide, by decide, by decide, by decide, by decide, by decide⟩

/-! ## C10: termination of the chunker loop

The loop is modelled step-for-step with explicit fuel via `splitChunksF`;
`|t|` units of fuel always suffice because the start position advances by
`max 1 (size - overlap) ≥ 1` on every iteration, even when `overlap ≥ size`. -/

theorem splitChunksGo_done (text : List Char) (size overlap i : Nat)
    (h : ¬ i < text.length) : splitChunksGo text size overlap i = [] := by
  rw [splitChunksGo_eq]
  simp [h]

theorem splitChunksF_complete (text : List Char) (size overlap : Nat) :
    ∀ fuel i, text.length ≤ i + fuel →
      splitChunksF text size overlap i fuel = splitChunksGo text size overlap i := by
  intro fuel
  induction fuel with
  | zero =>
    intro i hi
    have h : ¬ i < text.length := by omega
    rw [splitChunksGo_done text size overlap i h]
    rfl
  | succ f ih =>
    intro i hi
    rw [splitChunksGo_eq]
    by_cases h : i < text.length
    · simp only [splitChunksF, h, if_true]
      rw [ih (i + chunkStep size overlap) (by
        have := one_le_chunkStep size overlap
        omega)]
    · simp [splitChunksF, h]

/-- **C10, claim theorem.**  For every text and every `S ≥ 1`, `O ≥ 0`
(including `O ≥ S`), the chunker loop terminates: the start position advances
by `max 1 (S - O) ≥ 1` each iteration, so `|t|` iterations of fuel always
complete the loop and return exactly `splitChunks t S O` — the warned
infinite-loop case is unreachable even when the constructor-level overlap
clamp is bypassed. -/
theorem splitChunks_terminates (t : List Char) (S O : Nat) (hS : 1 ≤ S) :
    1 ≤ chunkStep S O
    ∧ splitChunksF t S O 0 t.length = splitChunks t S O := by
  refine ⟨one_le_chunkStep S O, ?_⟩
  exact splitChunksF_complete t S O t.length 0 (by omega)

/-- Witness for C10: overlap 5 exceeds size 2, and the loop still finishes on
its fuel budget. -/
theorem splitChunks_terminates_witness :
    (1 : Nat) ≤ 2 ∧ splitChunksF ("abc".data) 2 5 0 ("abc".data).length
      = splitChunks ("abc".data) 2 5 := by
  exact ⟨by decide, (splitChunks_terminates ("abc".data) 2 5 (by decide)).2⟩

/-! ## C7: overlap clamp in the `Indexer` constructor (src/indexer.ts)

```ts
const requestedOverlap = opts.chunkOverlap ?? 120;
this.chunkOverlap =
  requestedOverlap >= this.chunkSize
    ? Math.max(0, Math.floor(this.chunkSize * 0.15))
    : requestedOverlap;
```

`Math.floor(chunkSize * 0.15)` on IEEE doubles equals `⌊3·S/20⌋ = S*15/100`
for every `S` in the representable range (the relative error of the double
nearest `0.15` is ≈ 3.7·10⁻¹⁸, far too small to move the product across an
integer boundary, since `3S/20` is either an integer or at least `1/20` away
from one); the construction is a total function, so it can neither hang nor
error. -/

/-- Effective chunk overlap chosen by the `Indexer` constructor. -/
def effectiveOverlap (chunkSize requestedOverlap : Nat) : Nat :=
  if requestedOverlap ≥ chunkSize then max 0 (chunkSize * 15 / 100) else requestedOverlap

/-- **C7, claim theorem.**  If the requested overlap is `≥ chunkSize` the
constructor falls back to `⌊chunkSize · 0.15⌋`, otherwise it keeps the
requested overlap; in particular size 100 with requested overlap 150 yields
effective overlap 15.  (`effectiveOverlap` is a total function, so the
construction neither hangs nor errors for `O ≥ S`.) -/
theorem effectiveOverlap_spec (S O : Nat) :
    (O ≥ S → effectiveOverlap S O = S * 15 / 100)
    ∧ (O < S → effectiveOverlap S O = O)
    ∧ effectiveOverlap 100 150 = 15 := by
  refine ⟨?_, ?_, by decide⟩
  · intro h
    unfold effectiveOverlap
    simp [h]
  · intro h
    unfold effectiveOverlap
    have h2 : ¬ O ≥ S := by omega
    simp [h2]

/-- Witness for C7 at the claim's own example and at an in-range overlap. -/
theorem effectiveOverlap_spec_witness :
    effectiveOverlap 100 150 = 15 ∧ effectiveOverlap 800 120 = 120 := by
  exact ⟨(effectiveOverlap_spec 100 150).1 (by decide),
         (effectiveOverlap_spec 800 120).2.1 (by decide)⟩

/-! ## C2: similarity search (`rag_query` handler, src/index.ts)

```ts
const scored = indexer.getDocs().map((d) => ({ d, s: Embeddings.cosine(d.emb!, qEmb) }));
scored.sort((a, b) => b.s - a.s); // descending score
const top = scored.slice(0, Math.max(1, Math.min(50, top_k))).map((r) => ({ ... r.d ... }));
```

`Array.prototype.sort` is required to be stable (ES2019), and the comparator
`(a, b) => b.s - a.s` orders by descending score, so the sort is modelled by the
stable `List.mergeSort` with `le a b := (b.score ≤ a.score)`.  Scores are
modelled in `ℚ` (the comparator only ever compares scores; IEEE rounding does
not affect the ranking/clamping properties proved here, which hold for every
score assignment).  The handler is polymorphic in the document payload: the
corpus element type is a type parameter, and `score` abstracts
`cosine(d.emb, qEmb)` for the fixed query embedding. -/

/-- `Math.max(1, Math.min(50, top_k))`: the caller-supplied `top_k` clamped to `[1, 50]`. -/
def clampTopK (top_k : Int) : Nat := (max 1 (min 50 top_k)).toNat

/-- The comparator corresponding to `(a, b) => b.s - a.s` under a stable sort:
`a` may stay before `b` iff `b`'s score does not exceed `a`'s. -/
def scoreDesc {α : Type} (a b : α × Rat) : Bool := decide (b.2 ≤ a.2)

/-- The `rag_query` handler's scoring/ranking pipeline: score every corpus
entry, stable-sort descending by score, and return the first
`clampTopK top_k` entries. -/
def ragQueryMatches {α : Type} (docs : List α) (score : α → Rat) (top_k : Int) : List α :=
  ((((docs.map (fun d => (d, score d))).mergeSort scoreDesc).take (clampTopK top_k)).map
    (fun r => r.1))

theorem scoreDesc_trans {α : Type} (a b c : α × Rat) :
    scoreDesc a b → scoreDesc b c → scoreDesc a c := by
  unfold scoreDesc
  intro h1 h2
  simp only [decide_eq_true_eq] at h1 h2 ⊢
  exact le_trans h2 h1

theorem scoreDesc_total {α : Type} (a b : α × Rat) : scoreDesc a b || scoreDesc b a := by
  unfold scoreDesc
  rcases le_total a.2 b.2 with h | h <;> simp [h]

theorem mem_scored_snd {α : Type} (docs : List α) (score : α → Rat) {x : α × Rat}
    (hx : x ∈ docs.map (fun d => (d, score d))) : x.2 = score x.1 := by
  rcases List.mem_map.1 hx with ⟨d, _, rfl⟩
  rfl

/-- If the images under `f` are strictly increasing along `l`, any two members
with `f a < f b` occur in that order, as the two-element sublist `[a, b]`. -/
theorem pair_sublist_of_map_pairwise_lt {γ : Type} {f : γ → Nat} :
    ∀ {l : List γ}, (l.map f).Pairwise (· < ·) →
      ∀ {a b : γ}, a ∈ l → b ∈ l → f a < f b → [a, b] <+ l := by
  intro l
  induction l with
  | nil =>
    intro _ a b ha _ _
    exact absurd ha (List.not_mem_nil a)
  | cons x r ih =>
    intro hp a b ha hb hab
    rw [List.map_cons, List.pairwise_cons] at hp
    rcases List.mem_cons.1 ha with rfl | ha'
    · rcases List.mem_cons.1 hb with rfl | hb'
      · omega
      · exact List.cons_sublist_cons.2 (List.singleton_sublist.2 hb')
    · rcases List.mem_cons.1 hb with rfl | hb'
      · have := hp.1 (f a) (List.mem_map_of_mem f ha')
        omega
      · exact (ih hp.2 ha' hb' hab).cons x

/-- In a duplicate-free list, `[a, b]` and `[b, a]` cannot both be sublists
unless `a = b`. -/
theorem sublist_pair_antisymm {γ : Type} :
    ∀ {l : List γ}, l.Nodup → ∀ {a b : γ}, [a, b] <+ l → [b, a] <+ l → a = b := by
  intro l
  induction l with
  | nil =>
    intro _ a b h1 _
    exact absurd (h1.subset (by simp)) (List.not_mem_nil a)
  | cons x r ih =>
    intro hn a b h1 h2
    rw [List.nodup_cons] at hn
    cases h1 with
    | cons _ h1' =>
      cases h2 with
      | cons _ h2' => exact ih hn.2 h1' h2'
      | cons₂ _ h2' =>
        exact absurd (h1'.subset (by simp)) hn.1
    | cons₂ _ h1' =>
      cases h2 with
      | cons _ h2' =>
        exact absurd (h2'.subset (by simp)) hn.1
      | cons₂ _ h2' => rfl

/-- **C2, claim theorem.**  The `rag_query` pipeline returns the corpus
entries sorted descending by score; ties are broken by original corpus order
(stable sort, stated on the index-tagged corpus `docs.enum`); the result
length is exactly `min corpusSize (clamp top_k 1 50)` — so `top_k = 100` over
a corpus of 3 returns at most 3 entries — and `top_k = 1` over a non-empty
corpus returns exactly the single highest-scoring entry. -/
theorem rag_query_ranking {α : Type} (docs : List α) (score : α → Rat) (k : Int) :
    ((ragQueryMatches docs score k).length = min docs.length (clampTopK k))
    ∧ (∀ d, d ∈ ragQueryMatches docs score k → d ∈ docs)
    ∧ (ragQueryMatches docs score k).Pairwise (fun a b => score b ≤ score a)
    ∧ (ragQueryMatches docs.enum (fun p => score p.2) k).Pairwise
        (fun a b => score a.2 = score b.2 → a.1 < b.1)
    ∧ (k = 1 → docs ≠ [] →
        ∃ d, ragQueryMatches docs score 1 = [d] ∧ ∀ x ∈ docs, score x ≤ score d) := by
  refine ⟨?_, ?_, ?_, ?_, ?_⟩
  · unfold ragQueryMatches
    simp [Nat.min_comm]
  · intro d hd
    unfold ragQueryMatches at hd
    simp only [List.mem_map] at hd
    rcases hd with ⟨x, hx, rfl⟩
    have hx' : x ∈ (docs.map (fun d => (d, score d))).mergeSort scoreDesc :=
      (List.take_sublist _ _).subset hx
    rw [List.mem_mergeSort] at hx'
    rcases List.mem_map.1 hx' with ⟨d, hd, rfl⟩
    exact hd
  · unfold ragQueryMatches
    rw [List.pairwise_map]
    have hsorted : ((docs.map (fun d => (d, score d))).mergeSort scoreDesc).Pairwise
        (fun a b => scoreDesc a b) :=
      List.sorted_mergeSort (fun a b c => scoreDesc_trans a b c) scoreDesc_total _
    have htake := hsorted.sublist (List.take_sublist (clampTopK k) _)
    refine htake.imp_of_mem ?_
    intro a b ha hb hab
    have ha' : a.2 = score a.1 := mem_scored_snd docs score
      (List.mem_mergeSort.1 ((List.take_sublist _ _).subset ha))
    have hb' : b.2 = score b.1 := mem_scored_snd docs score
      (List.mem_mergeSort.1 ((List.take_sublist _ _).subset hb))
    have := of_decide_eq_true hab
    rw [ha', hb'] at this
    exact this
  · unfold ragQueryMatches
    rw [List.pairwise_map]
    set l := docs.enum.map (fun d => (d, score d.2)) with hl
    have hidx : (l.map (fun z => z.1.1)).Pairwise (· < ·) := by
      have : l.map (fun z => z.1.1) = docs.enum.map Prod.fst := by
        rw [hl, List.map_map]
        rfl
      rw [this, List.enum_map_fst]
      exact List.pairwise_lt_range _
    have hinj : ∀ x ∈ l, ∀ y ∈ l, x.1.1 = y.1.1 → x = y := by
      have hnm : (l.map (fun z => z.1.1)).Nodup := by
        refine hidx.imp ?_
        intro a b
        omega
      exact List.inj_on_of_nodup_map hnm
    have hnl : l.Nodup := by
      have hnm : (l.map (fun z => z.1.1)).Nodup := by
        refine hidx.imp ?_
        intro a b
        omega
      exact hnm.of_map _
    have hns : (l.mergeSort scoreDesc).Nodup :=
      ((List.mergeSort_perm l scoreDesc).nodup_iff).2 hnl
    have hPsorted : (l.mergeSort scoreDesc).Pairwise
        (fun x y => score x.1.2 = score y.1.2 → x.1.1 < y.1.1) := by
      rw [List.pairwise_iff_forall_sublist]
      intro x y hsub heq
      have hxm : x ∈ l := List.mem_mergeSort.1 (hsub.subset (by simp))
      have hym : y ∈ l := List.mem_mergeSort.1 (hsub.subset (by simp))
      have hxy : x ≠ y := by
        intro hcontra
        have hnd := List.pairwise_iff_forall_sublist.1 hns hsub
        exact hnd hcontra
      have hixy : x.1.1 ≠ y.1.1 := fun hcontra => hxy (hinj x hxm y hym hcontra)
      rcases Nat.lt_or_ge x.1.1 y.1.1 with hlt | hge
      · exact hlt
      · have hlt' : y.1.1 < x.1.1 := by omega
        exfalso
        have hyx : [y, x] <+ l := pair_sublist_of_map_pairwise_lt hidx hym hxm hlt'
        have hx2 : x.2 = score x.1.2 :=
          mem_scored_snd docs.enum (fun p => score p.2) (hl ▸ hxm)
        have hy2 : y.2 = score y.1.2 :=
          mem_scored_snd docs.enum (fun p => score p.2) (hl ▸ hym)
        have hpair : ([y, x] : List ((Nat × α) × Rat)).Pairwise (fun a b => scoreDesc a b) := by
          refine List.pairwise_pair.2 ?_
          unfold scoreDesc
          rw [decide_eq_true_eq, hx2, hy2, heq]
        have hyx' : [y, x] <+ l.mergeSort scoreDesc :=
          List.sublist_mergeSort (fun a b c => scoreDesc_trans a b c) scoreDesc_total hpair hyx
        exact hxy (sublist_pair_antisymm hns hsub hyx')
    refine (hPsorted.sublist (List.take_sublist (clampTopK k) _)).imp ?_
    intro a b h
    exact h
  · intro hk hne
    subst hk
    rcases hs : (docs.map (fun d => (d, score d))).mergeSort scoreDesc with _ | ⟨s0, stail⟩
    · exfalso
      have : docs.map (fun d => (d, score d)) = [] := by
        have hp := List.mergeSort_perm (docs.map (fun d => (d, score d))) scoreDesc
        rw [hs] at hp
        exact hp.symm.eq_nil
      rcases docs with _ | ⟨d, ds⟩
      · exact hne rfl
      · simp at this
    · refine ⟨s0.1, ?_, ?_⟩
      · unfold ragQueryMatches
        have hck : clampTopK 1 = 1 := by decide
        rw [hs, hck]
        rfl
      · intro x hx
        have hxm : (x, score x) ∈ (docs.map (fun d => (d, score d))).mergeSort scoreDesc := by
          rw [List.mem_mergeSort]
          exact List.mem_map_of_mem _ hx
        have hs02 : s0.2 = score s0.1 := by
          have hm : s0 ∈ (docs.map (fun d => (d, score d))).mergeSort scoreDesc := by
            rw [hs]
            exact List.mem_cons_self s0 stail
          exact mem_scored_snd docs score (List.mem_mergeSort.1 hm)
        rw [hs] at hxm
        rcases List.mem_cons.1 hxm with heq | htail
        · have hsn : score x = s0.2 := congrArg Prod.snd heq
          rw [hsn, hs02]
        · have hsorted : ((docs.map (fun d => (d, score d))).mergeSort scoreDesc).Pairwise
              (fun a b => scoreDesc a b) :=
            List.sorted_mergeSort (fun a b c => scoreDesc_trans a b c) scoreDesc_total _
          rw [hs, List.pairwise_cons] at hsorted
          have := of_decide_eq_true (hsorted.1 _ htail)
          rw [hs02] at this
          exact this

/-- Witness for C2: concrete three-entry corpus; `top_k = 1` yields the unique
top-scoring entry. -/
theorem rag_query_ranking_witness :
    ∃ d, ragQueryMatches [(3 : Rat), 7, 5] id 1 = [d] ∧ ∀ x ∈ [(3 : Rat), 7, 5], id x ≤ id d := by
  exact (rag_query_ranking [(3 : Rat), 7, 5] id 1).2.2.2.2 rfl (by decide)

/-! ## Persistence layer (`Persistence.load` / `Persistence.save`, src/persistence.ts)

The JSON file content is modelled structurally (`Json` below is the image of
`JSON.parse`; the `JSON.stringify`/`JSON.parse` round-trip itself is external
to the core).  A `Float32Array` embedding is modelled by its list of 32-bit
words; `Buffer.from(emb.buffer).toString("base64")` is base64 over the
little-endian bytes of those words, and `Buffer.from(s, "base64")` is the
inverse (the Lean decoder is strict where Node's is lenient; on every string
the encoder produces — and on the empty sentinel — they agree).  The
`Float32Array`-from-numeric-array branch of `load` converts JS doubles to
float32, which is genuine floating point; it is abstracted by the `embOfNums`
parameter, and no claim proved here depends on it. -/

/-- JSON values, as returned by `JSON.parse` (numbers restricted to the
integers, which covers every value the persistence layer writes or checks). -/
inductive Json where
  | jnull : Json
  | jbool : Bool → Json
  | jnum : Int → Json
  | jstr : String → Json
  | jarr : List Json → Json
  | jobj : List (String × Json) → Json

/-- JS truthiness of a parsed JSON value (`!v` is `!truthy v`). -/
def Json.truthy : Json → Bool
  | .jnull => false
  | .jbool b => b
  | .jnum n => n != 0
  | .jstr s => s != ""
  | .jarr _ => true
  | .jobj _ => true

/-- `typeof v === "object"` for a parsed JSON value (objects, arrays, null). -/
def Json.typeofObject : Json → Bool
  | .jobj _ => true
  | .jarr _ => true
  | .jnull => true
  | _ => false

/-- Property access `v[key]`; `none` is JS `undefined`. -/
def Json.getField : Json → String → Option Json
  | .jobj fields, key => fields.lookup key
  | _, _ => none

/-- `v === n` for a JS number `n` (strict equality, so a missing or
non-number field never matches). -/
def isNumEq (j : Option Json) (n : Int) : Bool :=
  match j with
  | some (.jnum m) => m == n
  | _ => false

/-- `v === s` for a JS string `s` (strict equality). -/
def strictEqStr (j : Json) (s : String) : Bool :=
  match j with
  | .jstr t => t == s
  | _ => false

/-- `meta.modelName && meta.modelName !== modelName`: a truthy stored model
name that differs from the current one. -/
def modelNameMismatch (j : Option Json) (modelName : String) : Bool :=
  match j with
  | some v => v.truthy && !(strictEqStr v modelName)
  | none => false

/-! ### Byte / word packing and base64 -/

/-- Little-endian bytes of a list of 32-bit words (the byte view that
`Buffer.from(emb.buffer, emb.byteOffset, emb.byteLength)` takes of a
`Float32Array`). -/
def bytesOfWordsLE : List Nat → List Nat
  | [] => []
  | w :: ws =>
    w % 256 :: w / 256 % 256 :: w / 65536 % 256 :: w / 16777216 % 256 :: bytesOfWordsLE ws

/-- Regroup little-endian bytes into 32-bit words
(`new Float32Array(buf.buffer, buf.byteOffset, buf.byteLength / 4)`). -/
def wordsOfBytesLE : List Nat → List Nat
  | b0 :: b1 :: b2 :: b3 :: rest =>
    (b0 + 256 * b1 + 65536 * b2 + 16777216 * b3) :: wordsOfBytesLE rest
  | _ => []

/-- The base64 alphabet. -/
def base64Chars : List Char :=
  ['A', 'B', 'C', 'D', 'E', 'F', 'G', 'H', 'I', 'J', 'K', 'L', 'M',
   'N', 'O', 'P', 'Q', 'R', 'S', 'T', 'U', 'V', 'W', 'X', 'Y', 'Z',
   'a', 'b', 'c', 'd', 'e', 'f', 'g', 'h', 'i', 'j', 'k', 'l', 'm',
   'n', 'o', 'p', 'q', 'r', 's', 't', 'u', 'v', 'w', 'x', 'y', 'z',
   '0', '1', '2', '3', '4', '5', '6', '7', '8', '9', '+', '/']

def encodeB64Char (n : Nat) : Char := base64Chars.getD n 'A'

def decodeB64Char (c : Char) : Option Nat := base64Chars.indexOf? c

/-- Standard base64 encoding of a byte list (`Buffer.toString("base64")`). -/
def base64Encode : List Nat → List Char
  | [] => []
  | [a] =>
    [encodeB64Char (a / 4), encodeB64Char (a % 4 * 16), '=', '=']
  | [a, b] =>
    [encodeB64Char (a / 4), encodeB64Char (a % 4 * 16 + b / 16),
     encodeB64Char (b % 16 * 4), '=']
  | a :: b :: c :: rest =>
    encodeB64Char (a / 4) :: encodeB64Char (a % 4 * 16 + b / 16) ::
    encodeB64Char (b % 16 * 4 + c / 64) :: encodeB64Char (c % 64) :: base64Encode rest

/-- Node's `unbase64` table: the standard alphabet plus the URL-safe aliases
`-` ↦ 62 and `_` ↦ 63; every other character (whitespace, punctuation, `=`)
has no sextet value. -/
def unbase64 (c : Char) : Option Nat :=
  match decodeB64Char c with
  | some i => some i
  | none => if c = '-' then some 62 else if c = '_' then some 63 else none

/-- The sextet stream Node's base64 decoder consumes: characters are scanned
left to right, characters with no table value are skipped, and the first `=`
stops decoding entirely. -/
def base64Sextets : List Char → List Nat
  | [] => []
  | c :: rest =>
    if c = '=' then []
    else
      match unbase64 c with
      | some v => v :: base64Sextets rest
      | none => base64Sextets rest

/-- Byte output of the sextet stream: each full group of four sextets yields
three bytes, a trailing group of two or three sextets yields one or two
bytes, and leftover bits short of a byte (a lone trailing sextet) are
discarded. -/
def base64DecodeSextets : List Nat → List Nat
  | s1 :: s2 :: s3 :: s4 :: rest =>
    (s1 * 4 + s2 / 16) :: (s2 % 16 * 16 + s3 / 4) :: (s3 % 4 * 64 + s4)
      :: base64DecodeSextets rest
  | [s1, s2] => [s1 * 4 + s2 / 16]
  | [s1, s2, s3] => [s1 * 4 + s2 / 16, s2 % 16 * 16 + s3 / 4]
  | _ => []

/-- `Buffer.from(s, "base64")`: Node's decoder is lenient and never fails —
invalid characters are skipped, the first `=` terminates decoding, trailing
bits are dropped — so e.g. `"A"` and `"!!!!"` both decode to the empty
buffer. -/
def base64Decode (s : List Char) : List Nat := base64DecodeSextets (base64Sextets s)

theorem decodeB64Char_encodeB64Char : ∀ n, n < 64 → decodeB64Char (encodeB64Char n) = some n := by
  decide

theorem encodeB64Char_ne_pad : ∀ n, n < 64 → encodeB64Char n ≠ '=' := by
  decide

theorem unbase64_encodeB64Char : ∀ n, n < 64 → unbase64 (encodeB64Char n) = some n := by
  intro n hn
  simp [unbase64, decodeB64Char_encodeB64Char n hn]

theorem base64Sextets_encode_cons (a b c : Nat) (rest : List Nat)
    (ha : a < 256) (hb : b < 256) (hc : c < 256) :
    base64Sextets (base64Encode (a :: b :: c :: rest))
      = a / 4 :: (a % 4 * 16 + b / 16) :: (b % 16 * 4 + c / 64) :: c % 64
          :: base64Sextets (base64Encode rest) := by
  have e1 := unbase64_encodeB64Char (a / 4) (by omega)
  have e2 := unbase64_encodeB64Char (a % 4 * 16 + b / 16) (by omega)
  have e3 := unbase64_encodeB64Char (b % 16 * 4 + c / 64) (by omega)
  have e4 := unbase64_encodeB64Char (c % 64) (by omega)
  have h1 := encodeB64Char_ne_pad (a / 4) (by omega)
  have h2 := encodeB64Char_ne_pad (a % 4 * 16 + b / 16) (by omega)
  have h3 := encodeB64Char_ne_pad (b % 16 * 4 + c / 64) (by omega)
  have h4 := encodeB64Char_ne_pad (c % 64) (by omega)
  match rest with
  | [] => simp [base64Encode, base64Sextets, e1, e2, e3, e4, h1, h2, h3, h4]
  | [d] => simp [base64Encode, base64Sextets, e1, e2, e3, e4, h1, h2, h3, h4]
  | [d, e] => simp [base64Encode, base64Sextets, e1, e2, e3, e4, h1, h2, h3, h4]
  | d :: e :: f :: ds => simp [base64Encode, base64Sextets, e1, e2, e3, e4, h1, h2, h3, h4]

theorem base64_roundtrip :
    ∀ bs : List Nat, (∀ b ∈ bs, b < 256) → base64Decode (base64Encode bs) = bs := by
  suffices H : ∀ n (bs : List Nat), bs.length ≤ n → (∀ b ∈ bs, b < 256) →
      base64Decode (base64Encode bs) = bs by
    intro bs hb
    exact H bs.length bs le_rfl hb
  intro n
  induction n with
  | zero =>
    intro bs hlen _
    have hnil : bs = [] := List.length_eq_zero.1 (by omega)
    subst hnil
    rfl
  | succ n ih =>
    intro bs hlen hb
    match bs with
    | [] => rfl
    | [a] =>
      have ha : a < 256 := hb a (by simp)
      have e1 := unbase64_encodeB64Char (a / 4) (by omega)
      have e2 := unbase64_encodeB64Char (a % 4 * 16) (by omega)
      have h1 := encodeB64Char_ne_pad (a / 4) (by omega)
      have h2 := encodeB64Char_ne_pad (a % 4 * 16) (by omega)
      simp [base64Encode, base64Decode, base64Sextets, base64DecodeSextets,
        e1, e2, h1, h2]
      omega
    | [a, b] =>
      have ha : a < 256 := hb a (by simp)
      have hb2 : b < 256 := hb b (by simp)
      have e1 := unbase64_encodeB64Char (a / 4) (by omega)
      have e2 := unbase64_encodeB64Char (a % 4 * 16 + b / 16) (by omega)
      have e3 := unbase64_encodeB64Char (b % 16 * 4) (by omega)
      have h1 := encodeB64Char_ne_pad (a / 4) (by omega)
      have h2 := encodeB64Char_ne_pad (a % 4 * 16 + b / 16) (by omega)
      have h3 := encodeB64Char_ne_pad (b % 16 * 4) (by omega)
      simp [base64Encode, base64Decode, base64Sextets, base64DecodeSextets,
        e1, e2, e3, h1, h2, h3]
      omega
    | a :: b :: c :: rest =>
      have ha : a < 256 := hb a (by simp)
      have hbb : b < 256 := hb b (by simp)
      have hc : c < 256 := hb c (by simp)
      have hlen2 : rest.length ≤ n := by
        simp only [List.length_cons] at hlen
        omega
      have hrec : base64DecodeSextets (base64Sextets (base64Encode rest)) = rest :=
        ih rest hlen2 (fun x hx => hb x (by simp [hx]))
      rw [show base64Decode (base64Encode (a :: b :: c :: rest))
          = base64DecodeSextets (base64Sextets (base64Encode (a :: b :: c :: rest)))
        from rfl]
      rw [base64Sextets_encode_cons a b c rest ha hbb hc]
      rw [show base64DecodeSextets (a / 4 :: (a % 4 * 16 + b / 16)
            :: (b % 16 * 4 + c / 64) :: c % 64 :: base64Sextets (base64Encode rest))
          = (a / 4 * 4 + (a % 4 * 16 + b / 16) / 16)
            :: ((a % 4 * 16 + b / 16) % 16 * 16 + (b % 16 * 4 + c / 64) / 4)
            :: ((b % 16 * 4 + c / 64) % 4 * 64 + c % 64)
            :: base64DecodeSextets (base64Sextets (base64Encode rest)) from rfl]
      rw [hrec]
      simp only [List.cons.injEq]
      refine ⟨by omega, by omega, by omega, trivial⟩

theorem bytesOfWordsLE_lt (ws : List Nat) : ∀ b ∈ bytesOfWordsLE ws, b < 256 := by
  induction ws with
  | nil => intro b hb; exact absurd hb (List.not_mem_nil b)
  | cons w ws ih =>
    intro b hb
    simp only [bytesOfWordsLE, List.mem_cons] at hb
    rcases hb with rfl | rfl | rfl | rfl | h
    · omega
    · omega
    · omega
    · omega
    · exact ih b h

theorem length_bytesOfWordsLE (ws : List Nat) :
    (bytesOfWordsLE ws).length = 4 * ws.length := by
  induction ws with
  | nil => rfl
  | cons w ws ih =>
    simp only [bytesOfWordsLE, List.length_cons, ih]
    ring

theorem wordsOfBytesLE_bytesOfWordsLE (ws : List Nat) (hw : ∀ w ∈ ws, w < 4294967296) :
    wordsOfBytesLE (bytesOfWordsLE ws) = ws := by
  induction ws with
  | nil => rfl
  | cons w ws ih =>
    have hwlt : w < 4294967296 := hw w (by simp)
    simp only [bytesOfWordsLE, wordsOfBytesLE]
    rw [ih (fun x hx => hw x (by simp [hx]))]
    congr 1
    omega

/-! ### The persisted document model -/

/-- In-memory chunk record (`Doc`, src/types.ts); the embedding is the word
list underlying the `Float32Array` (absent while a build is in flight). -/
structure Doc where
  id : String
  path : String
  chunk : Int
  text : String
  fileSize : Int
  lineCount : Int
  emb : Option (List Nat)
deriving DecidableEq

/-- One serialized chunk record, as written by `Persistence.save`. -/
def saveDoc (d : Doc) : Json :=
  .jobj [("id", .jstr d.id), ("path", .jstr d.path), ("chunk", .jnum d.chunk),
         ("text", .jstr d.text), ("fileSize", .jnum d.fileSize),
         ("lineCount", .jnum d.lineCount),
         ("emb", .jstr (match d.emb with
                        | some ws => String.mk (base64Encode (bytesOfWordsLE ws))
                        | none => ""))]

/-- `Persistence.save`: the JSON document written to the store file
(`savedAt` abstracts `new Date().toISOString()`). -/
def save (docs : List Doc) (chunkSize chunkOverlap : Int) (modelName savedAt : String) : Json :=
  .jobj [("version", .jnum 1),
         ("meta", .jobj [("chunkSize", .jnum chunkSize), ("chunkOverlap", .jnum chunkOverlap),
                         ("modelName", .jstr modelName), ("savedAt", .jstr savedAt),
                         ("embEncoding", .jstr "f32-base64")]),
         ("docs", .jarr (docs.map saveDoc))]

/-- Per-record validation and embedding decoding in the `for (const d of
parsed.docs)` loop of `Persistence.load`.  `embOfNums` abstracts the
`new Float32Array(emb.map((n) => Number(n) || 0))` branch (double-to-float32
rounding is floating point and no claim depends on it). -/
def loadDoc (embOfNums : List Json → List Nat) (d : Json) : Option Doc :=
  if d.truthy && d.typeofObject then
    match d.getField "id", d.getField "path", d.getField "chunk",
        d.getField "text", d.getField "fileSize" with
    | some (.jstr id), some (.jstr p), some (.jnum chunk),
      some (.jstr text), some (.jnum fileSize) =>
      match (match d.getField "emb" with
             | some (.jarr ns) => some (embOfNums ns)
             | some (.jstr s) =>
               if (base64Decode s.data).length % 4 = 0
               then some (wordsOfBytesLE (base64Decode s.data)) else none
             | _ => none) with
      | some arr =>
        some ⟨id, p, chunk, text, fileSize,
          (match d.getField "lineCount" with
           | some (.jnum lc) => if lc > 0 then lc else -1
           | _ => -1), some arr⟩
      | none => none
    | _, _, _, _, _ => none
  else none

/-- `parsed.meta || {}`. -/
def loadMeta (parsed : Json) : Json :=
  match parsed.getField "meta" with
  | some m => if m.truthy then m else .jobj []
  | none => .jobj []

/-- State of the store file on disk: absent, unparseable, or parsed JSON. -/
inductive DiskState where
  | noFile : DiskState
  | badJson : DiskState
  | content : Json → DiskState

/-- `Persistence.load`: `none` models the `null` result that forces a cold
rebuild. -/
def load (embOfNums : List Json → List Nat) (storePath : Option String) (disk : DiskState)
    (chunkSize chunkOverlap : Int) (modelName : String) : Option (List Doc) :=
  match storePath with
  | none => none
  | some _ =>
    match disk with
    | .noFile => none
    | .badJson => none
    | .content parsed =>
      if parsed.truthy then
        match parsed.getField "docs" with
        | some (.jarr rawDocs) =>
          if isNumEq ((loadMeta parsed).getField "chunkSize") chunkSize
              && isNumEq ((loadMeta parsed).getField "chunkOverlap") chunkOverlap
              && !(modelNameMismatch ((loadMeta parsed).getField "modelName") modelName) then
            some (rawDocs.filterMap (loadDoc embOfNums))
          else none
        | _ => none
      else none

/-! ### Load / save lemmas -/

/-- Loading a record `save` wrote reproduces the document exactly, when the
document carried an embedding of 32-bit words and a positive line count. -/
theorem loadDoc_saveDoc (embOfNums : List Json → List Nat) (d : Doc)
    (hemb : ∃ ws, d.emb = some ws ∧ ∀ w ∈ ws, w < 4294967296)
    (hlc : 0 < d.lineCount) :
    loadDoc embOfNums (saveDoc d) = some d := by
  obtain ⟨i, p, ch, tx, fs, lc, emb⟩ := d
  obtain ⟨ws, hws, hwlt⟩ := hemb
  simp only at hws hlc
  subst hws
  have hb64 : base64Decode (String.mk (base64Encode (bytesOfWordsLE ws))).data
      = bytesOfWordsLE ws := base64_roundtrip _ (bytesOfWordsLE_lt ws)
  have hmod : (bytesOfWordsLE ws).length % 4 = 0 := by
    rw [length_bytesOfWordsLE]
    omega
  have hwords := wordsOfBytesLE_bytesOfWordsLE ws hwlt
  simp [loadDoc, saveDoc, Json.getField, Json.truthy, Json.typeofObject, List.lookup,
    hb64, hmod, hwords, hlc]

theorem filterMap_loadDoc_map_saveDoc (embOfNums : List Json → List Nat) :
    ∀ ds : List Doc, (∀ d ∈ ds, ∃ ws, d.emb = some ws ∧ ∀ w ∈ ws, w < 4294967296) →
      (∀ d ∈ ds, 0 < d.lineCount) →
      (ds.map saveDoc).filterMap (loadDoc embOfNums) = ds := by
  intro ds
  induction ds with
  | nil =>
    intro _ _
    rfl
  | cons d ds ih =>
    intro h1 h2
    simp only [List.map_cons, List.filterMap_cons,
      loadDoc_saveDoc embOfNums d (h1 d (by simp)) (h2 d (by simp))]
    rw [ih (fun x hx => h1 x (by simp [hx])) (fun x hx => h2 x (by simp [hx]))]

/-- **C3, claim theorem.**  Saving a corpus whose chunks all carry 32-bit-word
embeddings and positive line counts, then loading it from the same store with
identical `chunkSize` / `chunkOverlap` / `modelName`, returns exactly the same
corpus: same chunk count, ids, paths, chunk indices, texts and file sizes in
the same order, with embeddings byte-for-byte equal after the base64
little-endian float32 round-trip. -/
theorem persistence_roundtrip (embOfNums : List Json → List Nat) (sp : String)
    (docs : List Doc) (cs co : Int) (mn savedAt : String)
    (hemb : ∀ d ∈ docs, ∃ ws, d.emb = some ws ∧ ∀ w ∈ ws, w < 4294967296)
    (hlc : ∀ d ∈ docs, 0 < d.lineCount) :
    load embOfNums (some sp) (.content (save docs cs co mn savedAt)) cs co mn = some docs := by
  have hfm := filterMap_loadDoc_map_saveDoc embOfNums docs hemb hlc
  simp [load, save, loadMeta, Json.getField, Json.truthy, List.lookup, isNumEq,
    modelNameMismatch, strictEqStr, hfm]

/-- Witness for C3: a one-chunk corpus with the word pattern of `1.0f`
round-trips exactly. -/
theorem persistence_roundtrip_witness :
    load (fun _ => []) (some "store.json")
        (.content (save [⟨"0", "a.ts", 0, "hello", 5, 1, some [1065353216]⟩] 800 120 "m" "t"))
        800 120 "m"
      = some [⟨"0", "a.ts", 0, "hello", 5, 1, some [1065353216]⟩] := by
  exact persistence_roundtrip (fun _ => []) "store.json"
    [⟨"0", "a.ts", 0, "hello", 5, 1, some [1065353216]⟩] 800 120 "m" "t"
    (by intro d hd; rw [List.mem_singleton] at hd; subst hd; exact ⟨[1065353216], rfl, by decide⟩)
    (by intro d hd; rw [List.mem_singleton] at hd; subst hd; decide)

theorem load_none_not_truthy (embOfNums : List Json → List Nat) (sp : String) (j : Json)
    (h : j.truthy = false) (cs co : Int) (mn : String) :
    load embOfNums (some sp) (.content j) cs co mn = none := by
  simp [load, h]

theorem load_none_no_docs_array (embOfNums : List Json → List Nat) (sp : String) (j : Json)
    (h : ∀ xs, j.getField "docs" ≠ some (.jarr xs)) (cs co : Int) (mn : String) :
    load embOfNums (some sp) (.content j) cs co mn = none := by
  unfold load
  cases ht : j.truthy with
  | false => simp [ht]
  | true => simp only [ht, reduceIte]

theorem load_none_meta_mismatch (embOfNums : List Json → List Nat) (sp : String) (j : Json)
    (xs : List Json) (hj : j.getField "docs" = some (.jarr xs)) (cs co : Int) (mn : String)
    (hmis : isNumEq ((loadMeta j).getField "chunkSize") cs = false
      ∨ isNumEq ((loadMeta j).getField "chunkOverlap") co = false
      ∨ modelNameMismatch ((loadMeta j).getField "modelName") mn = true) :
    load embOfNums (some sp) (.content j) cs co mn = none := by
  unfold load
  cases ht : j.truthy with
  | false => simp [ht]
  | true =>
    simp only [ht, reduceIte]
    rw [hj]
    have hcond : (isNumEq ((loadMeta j).getField "chunkSize") cs
        && isNumEq ((loadMeta j).getField "chunkOverlap") co
        && !(modelNameMismatch ((loadMeta j).getField "modelName") mn)) = false := by
      rcases hmis with h | h | h <;> simp [h]
    simp [hcond]

/-- **C4, claim theorem.**  `load` returns `null` — never a partial corpus —
whenever the store path is unset, the file is absent, the content is not
parseable JSON, the parsed value is falsy or lacks an array-valued `docs`
field, the stored `chunkSize`/`chunkOverlap` differ from the current
parameters, or a truthy stored `modelName` differs from the current model
name; in particular a store saved with `chunkSize = 800` loaded under
`chunkSize = 500` yields `null`. -/
theorem load_incompat_spec (embOfNums : List Json → List Nat) (cs co : Int) (mn : String) :
    (∀ disk, load embOfNums none disk cs co mn = none)
    ∧ (∀ sp, load embOfNums (some sp) .noFile cs co mn = none)
    ∧ (∀ sp, load embOfNums (some sp) .badJson cs co mn = none)
    ∧ (∀ sp j, j.truthy = false → load embOfNums (some sp) (.content j) cs co mn = none)
    ∧ (∀ sp j, (∀ xs, j.getField "docs" ≠ some (.jarr xs)) →
        load embOfNums (some sp) (.content j) cs co mn = none)
    ∧ (∀ sp j xs, j.getField "docs" = some (.jarr xs) →
        (isNumEq ((loadMeta j).getField "chunkSize") cs = false
          ∨ isNumEq ((loadMeta j).getField "chunkOverlap") co = false
          ∨ modelNameMismatch ((loadMeta j).getField "modelName") mn = true) →
        load embOfNums (some sp) (.content j) cs co mn = none)
    ∧ (∀ sp ds cs2 co2 mn2 sa, cs2 ≠ cs →
        load embOfNums (some sp) (.content (save ds cs2 co2 mn2 sa)) cs co mn = none) := by
  refine ⟨?_, ?_, ?_, ?_, ?_, ?_, ?_⟩
  · intro disk
    cases disk <;> rfl
  · intro sp
    rfl
  · intro sp
    rfl
  · intro sp j h
    exact load_none_not_truthy embOfNums sp j h cs co mn
  · intro sp j h
    exact load_none_no_docs_array embOfNums sp j h cs co mn
  · intro sp j xs hj hmis
    exact load_none_meta_mismatch embOfNums sp j xs hj cs co mn hmis
  · intro sp ds cs2 co2 mn2 sa hne
    refine load_none_meta_mismatch embOfNums sp (save ds cs2 co2 mn2 sa) (ds.map saveDoc)
      rfl cs co mn ?_
    left
    have : ((loadMeta (save ds cs2 co2 mn2 sa)).getField "chunkSize") = some (.jnum cs2) := rfl
    rw [this]
    simp [isNumEq]
    omega

/-- Witness for C4: the claim's own instance — a store saved with
`chunkSize = 800` is rejected by a runtime configured for `chunkSize = 500`. -/
theorem load_incompat_spec_witness :
    load (fun _ => []) (some "p") (.content (save [] 800 120 "m" "t")) 500 120 "m" = none := by
  exact (load_incompat_spec (fun _ => []) 500 120 "m").2.2.2.2.2.2 "p" [] 800 120 "m" "t"
    (by decide)

/-! ### C8: per-record validation on load -/

/-- **C8 counterexample.**  The claim asserts that a chunk saved without an
embedding (serialized with the empty-string sentinel in `emb`) is dropped on a
subsequent load.  In the code, `Buffer.from("", "base64")` yields an empty
buffer, `0 % 4 === 0` passes, and the resulting zero-length `Float32Array` is
truthy, so the record is **kept**, with an empty embedding. -/
theorem load_sentinel_counterexample :
    load (fun _ => []) (some "p")
        (.content (save [⟨"0", "a", 0, "t", 1, 1, none⟩] 800 120 "m" "now")) 800 120 "m"
      = some [⟨"0", "a", 0, "t", 1, 1, some []⟩]
    ∧ load (fun _ => []) (some "p")
        (.content (save [⟨"0", "a", 0, "t", 1, 1, none⟩] 800 120 "m" "now")) 800 120 "m"
      ≠ some [] := by
  constructor
  · rfl
  · intro h
    rw [show load (fun _ => []) (some "p")
        (.content (save [⟨"0", "a", 0, "t", 1, 1, none⟩] 800 120 "m" "now")) 800 120 "m"
      = some [⟨"0", "a", 0, "t", 1, 1, some []⟩] from rfl] at h
    simp at h

/-- **C8 (amended), claim theorem.**  For every store `load` accepts as
compatible, the returned corpus is the in-order filtering of the stored
records through the per-record validator; a record lacking one of the
required fields (string `id`, string `path`, numeric `chunk`, string `text`,
numeric `fileSize`), or whose `emb` is neither an array nor a string, or
whose string `emb` Node-decodes (leniently: characters outside the table are
skipped, the first `=` terminates) to a byte count not divisible by 4, is
silently dropped; every other string `emb` is **kept** — including the
empty-string sentinel written for a chunk saved without an embedding and
junk strings such as `"A"` or `"!!!!"`, all of which decode to the empty
buffer (`0 % 4 = 0`) and load as a chunk with an empty embedding rather than
being dropped. -/
theorem load_validation_spec (e : List Json → List Nat) :
    (∀ d, (∀ s, d.getField "id" ≠ some (.jstr s)) → loadDoc e d = none)
    ∧ (∀ d, (∀ s, d.getField "path" ≠ some (.jstr s)) → loadDoc e d = none)
    ∧ (∀ d, (∀ n : Int, d.getField "chunk" ≠ some (.jnum n)) → loadDoc e d = none)
    ∧ (∀ d, (∀ s, d.getField "text" ≠ some (.jstr s)) → loadDoc e d = none)
    ∧ (∀ d, (∀ n : Int, d.getField "fileSize" ≠ some (.jnum n)) → loadDoc e d = none)
    ∧ (∀ d, (∀ ns, d.getField "emb" ≠ some (.jarr ns)) →
        (∀ s, d.getField "emb" ≠ some (.jstr s)) → loadDoc e d = none)
    ∧ (∀ d s, d.getField "emb" = some (.jstr s) →
        (base64Decode s.data).length % 4 ≠ 0 → loadDoc e d = none)
    ∧ (∀ d i p ch tx fs s, (d.truthy && d.typeofObject) = true →
        d.getField "id" = some (.jstr i) → d.getField "path" = some (.jstr p) →
        d.getField "chunk" = some (.jnum ch) → d.getField "text" = some (.jstr tx) →
        d.getField "fileSize" = some (.jnum fs) → d.getField "emb" = some (.jstr s) →
        (base64Decode s.data).length % 4 = 0 →
        loadDoc e d = some ⟨i, p, ch, tx, fs,
          (match d.getField "lineCount" with
           | some (.jnum lc) => if lc > 0 then lc else -1
           | _ => -1), some (wordsOfBytesLE (base64Decode s.data))⟩)
    ∧ (∀ d : Doc, d.emb = none → 0 < d.lineCount →
        loadDoc e (saveDoc d)
          = some ⟨d.id, d.path, d.chunk, d.text, d.fileSize, d.lineCount, some []⟩)
    ∧ (∀ sp j xs cs co mn, j.truthy = true → j.getField "docs" = some (.jarr xs) →
        (isNumEq ((loadMeta j).getField "chunkSize") cs
          && isNumEq ((loadMeta j).getField "chunkOverlap") co
          && !(modelNameMismatch ((loadMeta j).getField "modelName") mn)) = true →
        load e (some sp) (.content j) cs co mn = some (xs.filterMap (loadDoc e))) := by
  refine ⟨?_, ?_, ?_, ?_, ?_, ?_, ?_, ?_, ?_, ?_⟩
  · intro d h
    unfold loadDoc
    cases ht : (d.truthy && d.typeofObject) with
    | false => simp [ht]
    | true =>
      simp only [ht, reduceIte]
      split
      · rename_i idv pv chv txv fsv h1 h2 h3 h4 h5
        exact absurd h1 (h idv)
      · rfl
  · intro d h
    unfold loadDoc
    cases ht : (d.truthy && d.typeofObject) with
    | false => simp [ht]
    | true =>
      simp only [ht, reduceIte]
      split
      · rename_i idv pv chv txv fsv h1 h2 h3 h4 h5
        exact absurd h2 (h pv)
      · rfl
  · intro d h
    unfold loadDoc
    cases ht : (d.truthy && d.typeofObject) with
    | false => simp [ht]
    | true =>
      simp only [ht, reduceIte]
      split
      · rename_i idv pv chv txv fsv h1 h2 h3 h4 h5
        exact absurd h3 (h chv)
      · rfl
  · intro d h
    unfold loadDoc
    cases ht : (d.truthy && d.typeofObject) with
    | false => simp [ht]
    | true =>
      simp only [ht, reduceIte]
      split
      · rename_i idv pv chv txv fsv h1 h2 h3 h4 h5
        exact absurd h4 (h txv)
      · rfl
  · intro d h
    unfold loadDoc
    cases ht : (d.truthy && d.typeofObject) with
    | false => simp [ht]
    | true =>
      simp only [ht, reduceIte]
      split
      · rename_i idv pv chv txv fsv h1 h2 h3 h4 h5
        exact absurd h5 (h fsv)
      · rfl
  · intro d harr hstr
    unfold loadDoc
    cases ht : (d.truthy && d.typeofObject) with
    | false => simp [ht]
    | true =>
      simp only [ht, reduceIte]
      split
      · cases hemb : d.getField "emb" with
        | none => rfl
        | some v =>
          cases v with
          | jnull => rfl
          | jbool b => rfl
          | jnum n => rfl
          | jstr s => exact absurd hemb (hstr s)
          | jarr ns => exact absurd hemb (harr ns)
          | jobj fs => rfl
      · rfl
  · intro d s hemb hbad
    unfold loadDoc
    cases ht : (d.truthy && d.typeofObject) with
    | false => simp [ht]
    | true =>
      simp only [ht, reduceIte]
      split
      · rw [hemb]
        simp [hbad]
      · rfl
  · intro d i p ch tx fs s ht hid hp hch htx hfs hemb hmod
    unfold loadDoc
    simp only [ht, reduceIte]
    rw [hid, hp, hch, htx, hfs, hemb]
    dsimp only
    rw [if_pos hmod]
  · intro d hnone hlc
    obtain ⟨i, p, ch, tx, fs, lc, emb⟩ := d
    simp only at hnone hlc
    subst hnone
    simp [loadDoc, saveDoc, Json.getField, Json.truthy, Json.typeofObject, List.lookup,
      base64Decode, base64Sextets, base64DecodeSextets, wordsOfBytesLE, hlc]
  · intro sp j xs cs co mn ht hj hcond
    unfold load
    simp only [ht, reduceIte]
    rw [hj]
    simp [hcond]

/-- Witness for C8: a record with no `id` field is dropped; a record whose
`emb` is the junk string `"A"` (Node decodes it to the empty buffer) is kept
with an empty embedding; the sentinel record from `load_validation_spec`'s
kept-branch at a concrete document. -/
theorem load_validation_spec_witness :
    loadDoc (fun _ => []) (.jobj [("path", .jstr "a")]) = none
    ∧ loadDoc (fun _ => [])
        (.jobj [("id", .jstr "1"), ("path", .jstr "b"), ("chunk", .jnum 2),
                ("text", .jstr "xy"), ("fileSize", .jnum 7), ("emb", .jstr "A")])
        = some ⟨"1", "b", 2, "xy", 7, -1, some []⟩
    ∧ loadDoc (fun _ => []) (saveDoc ⟨"1", "b", 2, "xy", 7, 3, none⟩)
        = some ⟨"1", "b", 2, "xy", 7, 3, some []⟩ := by
  refine ⟨?_, ?_, ?_⟩
  · exact (load_validation_spec (fun _ => [])).1 (.jobj [("path", .jstr "a")])
      (fun s h => Option.noConfusion h)
  · exact (load_validation_spec (fun _ => [])).2.2.2.2.2.2.2.1
      (.jobj [("id", .jstr "1"), ("path", .jstr "b"), ("chunk", .jnum 2),
              ("text", .jstr "xy"), ("fileSize", .jnum 7), ("emb", .jstr "A")])
      "1" "b" 2 "xy" 7 "A" (by decide) rfl rfl rfl rfl rfl rfl (by decide)
  · exact (load_validation_spec (fun _ => [])).2.2.2.2.2.2.2.2.1
      ⟨"1", "b", 2, "xy", 7, 3, none⟩ rfl (by decide)

/-! ## C5: path safety (`Indexer.ensureWithinRoot`, src/indexer.ts)

```ts
const abs = path.resolve(root, relPath);
const normRoot = path.resolve(root) + path.sep;
if (abs !== path.resolve(root) && !abs.startsWith(normRoot)) {
  throw new McpError(ErrorCode.InvalidRequest, "Path outside ROOT");
}
return abs;
```

Absolute paths are modelled by their segment lists (POSIX, `path.sep = "/"`);
the root is given already resolved (the server resolves it at startup), and
the relative path is given as its `/`-split segment list, so that
`path.resolve(root, relPath)` is the usual left fold that skips empty and
`"."` segments, pops on `".."` (clamping at the filesystem root), and pushes
everything else.  The string comparison and `startsWith` of the source are
performed on the rendered strings (`renderAbs`), not on segment lists — this
keeps the model faithful at the filesystem root, where `normRoot` is `"//"`
and `startsWith` rejects even genuine descendants. -/

/-- A well-formed path segment: nonempty and free of the separator. -/
def GoodSeg (s : String) : Prop := s ≠ "" ∧ '/' ∉ s.data

instance (s : String) : Decidable (GoodSeg s) := by
  unfold GoodSeg
  infer_instance

/-- Render a nonempty absolute path from its segments: `/a/b`. -/
def renderSegs : List String → List Char
  | [] => []
  | s :: rest => '/' :: (s.data ++ renderSegs rest)

/-- Render an absolute path; the filesystem root renders as `/`. -/
def renderAbs (segs : List String) : List Char :=
  if segs.isEmpty then ['/'] else renderSegs segs

/-- `path.resolve(base, rel)` on segment lists (for `rel` relative). -/
def resolveSegs (base : List String) (rel : List String) : List String :=
  rel.foldl
    (fun acc seg =>
      if seg = "" ∨ seg = "." then acc
      else if seg = ".." then acc.dropLast
      else acc ++ [seg])
    base

inductive PathError where
  | outOfBounds : PathError
deriving DecidableEq

/-- `Indexer.ensureWithinRoot(root, relPath)`: `abs` is
`path.resolve(root, relPath)`, `normRoot` is `path.resolve(root) + path.sep`
(the root argument is given resolved), and `startsWith` is `isPrefixOf` on the
rendered strings. -/
def ensureWithinRoot (root rel : List String) : Except PathError (List String) :=
  if (renderAbs (resolveSegs root rel) != renderAbs root)
      && !((renderAbs root ++ ['/']).isPrefixOf (renderAbs (resolveSegs root rel))) then
    .error .outOfBounds
  else
    .ok (resolveSegs root rel)

/-- `resolveSegs` preserves segment well-formedness. -/
theorem resolveSegs_good :
    ∀ (rel base : List String), (∀ s ∈ base, GoodSeg s) → (∀ s ∈ rel, '/' ∉ s.data) →
      ∀ s ∈ resolveSegs base rel, GoodSeg s := by
  intro rel
  induction rel with
  | nil =>
    intro base hb _ s hs
    exact hb s hs
  | cons seg rest ih =>
    intro base hb hr s hs
    rw [resolveSegs, List.foldl_cons] at hs
    by_cases h1 : seg = "" ∨ seg = "."
    · rw [if_pos h1] at hs
      exact ih base hb (fun x hx => hr x (by simp [hx])) s hs
    · rw [if_neg h1] at hs
      by_cases h2 : seg = ".."
      · rw [if_pos h2] at hs
        refine ih base.dropLast (fun x hx => hb x (List.dropLast_subset base hx))
          (fun x hx => hr x (by simp [hx])) s hs
      · rw [if_neg h2] at hs
        refine ih (base ++ [seg]) ?_ (fun x hx => hr x (by simp [hx])) s hs
        intro x hx
        rcases List.mem_append.1 hx with hx' | hx'
        · exact hb x hx'
        · rw [List.mem_singleton] at hx'
          subst hx'
          refine ⟨?_, hr x (by simp)⟩
          intro hcontra
          exact h1 (Or.inl hcontra)

/-- A rendered nonempty path starts with the separator. -/
theorem renderSegs_head_shape (l : List String) (h : l ≠ []) :
    ∃ u, renderSegs l = '/' :: u := by
  cases l with
  | nil => exact absurd rfl h
  | cons s rest => exact ⟨s.data ++ renderSegs rest, rfl⟩

theorem renderSegs_append_sep_shape (l : List String) :
    ∃ u, renderSegs l ++ ['/'] = '/' :: u := by
  cases l with
  | nil => exact ⟨[], rfl⟩
  | cons s rest => exact ⟨s.data ++ renderSegs rest ++ ['/'], by simp [renderSegs]⟩

/-- Separator-free blocks followed by separator-headed tails concatenate
injectively: the key unique-decomposition fact behind `startsWith`. -/
theorem sep_block_prefix :
    ∀ (xs ys u v : List Char), '/' ∉ xs → '/' ∉ ys →
      (∃ u2, u = '/' :: u2) → (v = [] ∨ ∃ v2, v = '/' :: v2) →
      ((xs ++ u) <+: (ys ++ v) ↔ xs = ys ∧ u <+: v) := by
  intro xs
  induction xs with
  | nil =>
    intro ys u v _ hys hu hv
    cases ys with
    | nil => simp
    | cons y ys' =>
      have hyne : y ≠ '/' := by
        intro h
        apply hys
        rw [h]
        exact List.mem_cons_self '/' ys'
      obtain ⟨u2, rfl⟩ := hu
      simp only [List.nil_append, List.cons_append]
      constructor
      · intro hp
        rw [List.cons_prefix_cons] at hp
        exact absurd hp.1.symm hyne
      · rintro ⟨hcontra, -⟩
        exact absurd hcontra.symm (List.cons_ne_nil y ys')
  | cons x xs' ih =>
    intro ys u v hxs hys hu hv
    have hxne : x ≠ '/' := by
      intro h
      apply hxs
      rw [h]
      exact List.mem_cons_self '/' xs'
    cases ys with
    | nil =>
      simp only [List.nil_append, List.cons_append]
      constructor
      · intro hp
        exfalso
        rcases hv with rfl | ⟨v2, rfl⟩
        · obtain ⟨t, ht⟩ := hp
          simp at ht
        · rw [List.cons_prefix_cons] at hp
          exact hxne hp.1
      · rintro ⟨hcontra, -⟩
        exact absurd hcontra (List.cons_ne_nil x xs')
    | cons y ys' =>
      simp only [List.cons_append, List.cons_prefix_cons, List.cons_eq_cons]
      rw [ih ys' u v (fun hc => hxs (List.mem_cons_of_mem x hc))
        (fun hc => hys (List.mem_cons_of_mem y hc)) hu hv]
      exact and_assoc.symm

/-- Equality variant of `sep_block_prefix`. -/
theorem sep_block_eq :
    ∀ (xs ys u v : List Char), '/' ∉ xs → '/' ∉ ys →
      (u = [] ∨ ∃ u2, u = '/' :: u2) → (v = [] ∨ ∃ v2, v = '/' :: v2) →
      (xs ++ u = ys ++ v ↔ xs = ys ∧ u = v) := by
  intro xs
  induction xs with
  | nil =>
    intro ys u v _ hys hu hv
    cases ys with
    | nil => simp
    | cons y ys' =>
      have hyne : y ≠ '/' := by
        intro h
        apply hys
        rw [h]
        exact List.mem_cons_self '/' ys'
      simp only [List.nil_append, List.cons_append]
      constructor
      · intro hp
        exfalso
        rcases hu with rfl | ⟨u2, rfl⟩
        · exact List.cons_ne_nil y _ hp.symm
        · rw [List.cons_eq_cons] at hp
          exact hyne hp.1.symm
      · rintro ⟨hcontra, -⟩
        exact absurd hcontra.symm (List.cons_ne_nil y ys')
  | cons x xs' ih =>
    intro ys u v hxs hys hu hv
    have hxne : x ≠ '/' := by
      intro h
      apply hxs
      rw [h]
      exact List.mem_cons_self '/' xs'
    cases ys with
    | nil =>
      simp only [List.nil_append, List.cons_append]
      constructor
      · intro hp
        exfalso
        rcases hv with rfl | ⟨v2, rfl⟩
        · exact List.cons_ne_nil x _ hp
        · rw [List.cons_eq_cons] at hp
          exact hxne hp.1
      · rintro ⟨hcontra, -⟩
        exact absurd hcontra (List.cons_ne_nil x xs')
    | cons y ys' =>
      simp only [List.cons_append, List.cons_eq_cons]
      rw [ih ys' u v (fun hc => hxs (List.mem_cons_of_mem x hc))
        (fun hc => hys (List.mem_cons_of_mem y hc)) hu hv]
      exact and_assoc.symm

/-- On well-formed segments, `startsWith(render root + "/")` is exactly
"root is a strict segment ancestor". -/
theorem renderSegs_sep_prefix_iff :
    ∀ (r a : List String), (∀ s ∈ r, GoodSeg s) → (∀ s ∈ a, GoodSeg s) →
      ((renderSegs r ++ ['/']) <+: renderSegs a ↔ ∃ t, t ≠ [] ∧ a = r ++ t) := by
  intro r
  induction r with
  | nil =>
    intro a _ ha
    cases a with
    | nil =>
      simp only [renderSegs, List.nil_append]
      constructor
      · intro ⟨t, ht⟩
        simp at ht
      · intro ⟨t, htne, hteq⟩
        exact absurd (by simpa using hteq.symm) htne
    | cons s a' =>
      simp only [renderSegs, List.nil_append]
      constructor
      · intro _
        exact ⟨s :: a', List.cons_ne_nil s a', rfl⟩
      · intro _
        exact ⟨s.data ++ renderSegs a', rfl⟩
  | cons s r' ih =>
    intro a hr ha
    cases a with
    | nil =>
      simp only [renderSegs]
      constructor
      · intro ⟨t, ht⟩
        simp at ht
      · intro ⟨t, htne, hteq⟩
        simp at hteq
    | cons s2 a' =>
      have hkey := sep_block_prefix s.data s2.data (renderSegs r' ++ ['/']) (renderSegs a')
        (hr s (by simp)).2 (ha s2 (by simp)).2
        (renderSegs_append_sep_shape r')
        (by
          cases a' with
          | nil => exact Or.inl rfl
          | cons z zs => exact Or.inr (renderSegs_head_shape (z :: zs) (List.cons_ne_nil z zs)))
      simp only [renderSegs, List.cons_append, List.append_assoc, List.cons_prefix_cons,
        true_and]
      rw [hkey, ih a' (fun x hx => hr x (by simp [hx])) (fun x hx => ha x (by simp [hx]))]
      constructor
      · rintro ⟨hdata, t, htne, hteq⟩
        refine ⟨t, htne, ?_⟩
        rw [List.cons_eq_cons]
        exact ⟨(String.ext hdata).symm, hteq⟩
      · rintro ⟨t, htne, hteq⟩
        rw [List.cons_eq_cons] at hteq
        exact ⟨congrArg String.data hteq.1.symm, t, htne, hteq.2⟩

/-- On well-formed segments, rendering is injective. -/
theorem renderSegs_inj :
    ∀ (r a : List String), (∀ s ∈ r, GoodSeg s) → (∀ s ∈ a, GoodSeg s) →
      (renderSegs a = renderSegs r ↔ a = r) := by
  intro r
  induction r with
  | nil =>
    intro a _ ha
    cases a with
    | nil => simp
    | cons s a' => simp [renderSegs]
  | cons s r' ih =>
    intro a hr ha
    cases a with
    | nil => simp [renderSegs]
    | cons s2 a' =>
      have hkey := sep_block_eq s2.data s.data (renderSegs a') (renderSegs r')
        (ha s2 (by simp)).2 (hr s (by simp)).2
        (by
          cases a' with
          | nil => exact Or.inl rfl
          | cons z zs => exact Or.inr (renderSegs_head_shape (z :: zs) (List.cons_ne_nil z zs)))
        (by
          cases r' with
          | nil => exact Or.inl rfl
          | cons z zs => exact Or.inr (renderSegs_head_shape (z :: zs) (List.cons_ne_nil z zs)))
      simp only [renderSegs, List.cons_eq_cons, true_and]
      rw [hkey, ih a' (fun x hx => hr x (by simp [hx])) (fun x hx => ha x (by simp [hx]))]
      constructor
      · rintro ⟨hdata, hrest⟩
        exact ⟨String.ext hdata, hrest⟩
      · rintro ⟨hdata, hrest⟩
        exact ⟨congrArg String.data hdata, hrest⟩

theorem data_eq_nil_iff (s : String) : s.data = [] ↔ s = "" := by
  constructor
  · intro h
    exact String.ext h
  · intro h
    subst h
    rfl

theorem renderAbs_nil : renderAbs [] = ['/'] := rfl

theorem renderAbs_cons (s : String) (l : List String) :
    renderAbs (s :: l) = renderSegs (s :: l) := rfl

/-- `abs === path.resolve(root)` on the rendered strings is segment equality,
for well-formed segments. -/
theorem renderAbs_eq_iff (r a : List String)
    (hr : ∀ s ∈ r, GoodSeg s) (ha : ∀ s ∈ a, GoodSeg s) :
    renderAbs a = renderAbs r ↔ a = r := by
  cases a with
  | nil =>
    cases r with
    | nil => simp
    | cons s r' =>
      rw [renderAbs_nil, renderAbs_cons]
      constructor
      · intro h
        exfalso
        unfold renderSegs at h
        rw [List.cons_eq_cons] at h
        have hd : s.data = [] := (List.append_eq_nil.1 h.2.symm).1
        exact (hr s (by simp)).1 ((data_eq_nil_iff s).1 hd)
      · intro h
        exact absurd h.symm (List.cons_ne_nil s r')
  | cons s2 a' =>
    cases r with
    | nil =>
      rw [renderAbs_nil, renderAbs_cons]
      constructor
      · intro h
        exfalso
        unfold renderSegs at h
        rw [List.cons_eq_cons] at h
        have hd : s2.data = [] := (List.append_eq_nil.1 h.2).1
        exact (ha s2 (by simp)).1 ((data_eq_nil_iff s2).1 hd)
      · intro h
        exact absurd h (List.cons_ne_nil s2 a')
    | cons s r' =>
      rw [renderAbs_cons, renderAbs_cons]
      exact renderSegs_inj (s :: r') (s2 :: a') hr ha

/-- `abs.startsWith(path.resolve(root) + "/")` on the rendered strings is
"root is a strict segment ancestor of abs", for a non-filesystem-root root. -/
theorem renderAbs_sep_prefix_iff (r a : List String)
    (hr : ∀ s ∈ r, GoodSeg s) (ha : ∀ s ∈ a, GoodSeg s) (hne : r ≠ []) :
    ((renderAbs r ++ ['/']) <+: renderAbs a ↔ ∃ t, t ≠ [] ∧ a = r ++ t) := by
  obtain ⟨s, r', rfl⟩ : ∃ s r', r = s :: r' := by
    cases r with
    | nil => exact absurd rfl hne
    | cons s r' => exact ⟨s, r', rfl⟩
  cases a with
  | nil =>
    rw [renderAbs_nil, renderAbs_cons]
    constructor
    · intro ⟨t, ht⟩
      exfalso
      have hlen := congrArg List.length ht
      simp only [renderSegs, List.length_append, List.length_cons, List.length_nil] at hlen
      omega
    · intro ⟨t, htne, hteq⟩
      exact absurd hteq.symm (by simp)
  | cons s2 a' =>
    rw [renderAbs_cons, renderAbs_cons]
    exact renderSegs_sep_prefix_iff (s :: r') (s2 :: a') hr ha

/-- The throw condition of `ensureWithinRoot`, characterised on segments. -/
theorem ensureWithinRoot_error_iff (root rel : List String)
    (hroot : ∀ s ∈ root, GoodSeg s) (hrel : ∀ s ∈ rel, '/' ∉ s.data) (hne : root ≠ []) :
    (ensureWithinRoot root rel = .error .outOfBounds
      ↔ ¬ (resolveSegs root rel = root ∨ ∃ t, t ≠ [] ∧ resolveSegs root rel = root ++ t)) := by
  have habs : ∀ s ∈ resolveSegs root rel, GoodSeg s := resolveSegs_good rel root hroot hrel
  have heq := renderAbs_eq_iff root (resolveSegs root rel) hroot habs
  have hpre := renderAbs_sep_prefix_iff root (resolveSegs root rel) hroot habs hne
  unfold ensureWithinRoot
  by_cases hcond : ((renderAbs (resolveSegs root rel) != renderAbs root)
      && !((renderAbs root ++ ['/']).isPrefixOf (renderAbs (resolveSegs root rel)))) = true
  · rw [if_pos hcond]
    have hcond2 := hcond
    rw [Bool.and_eq_true] at hcond2
    obtain ⟨h1, h2⟩ := hcond2
    rw [bne_iff_ne] at h1
    rw [Bool.not_eq_true', ← Bool.not_eq_true] at h2
    rw [List.isPrefixOf_iff_prefix] at h2
    constructor
    · intro _ hor
      rcases hor with hab | hab
      · exact h1 (heq.2 hab)
      · exact h2 (hpre.2 hab)
    · intro _
      rfl
  · rw [if_neg hcond]
    rw [Bool.not_eq_true, Bool.and_eq_false_iff] at hcond
    constructor
    · intro h
      exact absurd h (by simp)
    · intro hno
      exfalso
      apply hno
      rcases hcond with hb1 | hb2
      · left
        rw [bne_eq_false_iff_eq] at hb1
        exact heq.1 hb1
      · right
        rw [Bool.not_eq_false'] at hb2
        rw [List.isPrefixOf_iff_prefix] at hb2
        exact hpre.1 hb2

/-- **C5 (amended), claim theorem.**  For every resolved root that is not the
filesystem root (at the filesystem root `normRoot` is `"//"` and `startsWith`
rejects even genuine descendants): `ensureWithinRoot(root, rel)` fails with
OutOfBounds exactly when the resolved path is neither the root itself nor
strictly under it, and otherwise returns the resolved path; resolving
`"../outside.txt"` fails whenever the root's final segment is not
`"outside.txt"` (when it is, resolution lands exactly on the root and
succeeds — the unamended "for every root" is false); resolving `"."` or `""`
succeeds and returns the root itself. -/
theorem ensureWithinRoot_spec (root rel : List String)
    (hroot : ∀ s ∈ root, GoodSeg s) (hrel : ∀ s ∈ rel, '/' ∉ s.data) (hne : root ≠ []) :
    (ensureWithinRoot root rel = .error .outOfBounds
      ↔ ¬ (resolveSegs root rel = root ∨ ∃ t, t ≠ [] ∧ resolveSegs root rel = root ++ t))
    ∧ (ensureWithinRoot root rel = .error .outOfBounds
        ∨ ensureWithinRoot root rel = .ok (resolveSegs root rel))
    ∧ (root.getLast? ≠ some "outside.txt" →
        ensureWithinRoot root ["..", "outside.txt"] = .error .outOfBounds)
    ∧ ensureWithinRoot root ["."] = .ok root
    ∧ ensureWithinRoot root [] = .ok root := by
  refine ⟨ensureWithinRoot_error_iff root rel hroot hrel hne, ?_, ?_, ?_, ?_⟩
  · unfold ensureWithinRoot
    cases hcond : ((renderAbs (resolveSegs root rel) != renderAbs root)
        && !((renderAbs root ++ ['/']).isPrefixOf (renderAbs (resolveSegs root rel)))) with
    | true => simp
    | false => simp
  · intro hlast
    have habs : resolveSegs root ["..", "outside.txt"] = root.dropLast ++ ["outside.txt"] := rfl
    rw [ensureWithinRoot_error_iff root ["..", "outside.txt"] hroot (by decide) hne, habs]
    intro hor
    rcases hor with hab | ⟨t, htne, hteq⟩
    · apply hlast
      have hsplit := List.dropLast_concat_getLast hne
      nth_rewrite 2 [← hsplit] at hab
      have := List.append_cancel_left hab
      rw [List.cons_eq_cons] at this
      rw [List.getLast?_eq_getLast root hne, ← this.1]
    · have hlen := congrArg List.length hteq
      simp only [List.length_append, List.length_dropLast, List.length_singleton] at hlen
      have hrne : 0 < root.length := List.length_pos.2 hne
      have : t.length = 0 := by omega
      exact htne (List.length_eq_zero.1 this)
  · have habs : resolveSegs root ["."] = root := rfl
    unfold ensureWithinRoot
    rw [habs]
    simp
  · have habs : resolveSegs root [] = root := rfl
    unfold ensureWithinRoot
    rw [habs]
    simp

/-- **C5 counterexample.**  The claim asserts `"../outside.txt"` fails for
every root; for a root whose final segment is itself `outside.txt`, the code
resolves `../outside.txt` to the root itself and succeeds. -/
theorem ensureWithinRoot_claim_counterexample :
    ensureWithinRoot ["home", "outside.txt"] ["..", "outside.txt"]
      = .ok ["home", "outside.txt"]
    ∧ ensureWithinRoot ["home", "outside.txt"] ["..", "outside.txt"]
      ≠ .error .outOfBounds := by
  constructor
  · rfl
  · intro h
    rw [show ensureWithinRoot ["home", "outside.txt"] ["..", "outside.txt"]
        = .ok ["home", "outside.txt"] from rfl] at h
    exact Except.noConfusion h

/-- Witness for C5 at a concrete root. -/
theorem ensureWithinRoot_spec_witness :
    ensureWithinRoot ["srv", "repo"] ["..", "outside.txt"] = .error .outOfBounds
    ∧ ensureWithinRoot ["srv", "repo"] ["."] = .ok ["srv", "repo"]
    ∧ ensureWithinRoot ["srv", "repo"] [] = .ok ["srv", "repo"] := by
  have h := ensureWithinRoot_spec ["srv", "repo"] [] (by decide) (by decide) (by decide)
  exact ⟨h.2.2.1 (by decide), h.2.2.2.1, h.2.2.2.2⟩

/-! ## C6: incremental update (`Indexer.incrementalUpdate`, src/indexer.ts)

The filesystem re-scan is abstracted as `current` (the `rel → size` map built
from `discoverFiles()`, in discovery order; `fast-glob` yields each relative
path once, so the keys are assumed duplicate-free), file reads as
`read : String → Option (List Char)` (`null` = unreadable/empty, skipped),
and the embedding backend as `embed`.  `docsByFile` is consulted only for its
key set and each group's first element, so it is modelled by `docs.filter` on
the original corpus (groups are built in corpus order) and by `firstDedup` of
the path list (Map keys are in first-insertion order). -/

/-- Keys of a JS `Map` built by repeated `set`: first-occurrence order. -/
def firstDedupAux (seen : List String) : List String → List String
  | [] => []
  | p :: rest =>
    if p ∈ seen then firstDedupAux seen rest else p :: firstDedupAux (p :: seen) rest

def firstDedup (l : List String) : List String := firstDedupAux [] l

theorem mem_firstDedupAux (p : String) :
    ∀ (l seen : List String), p ∈ firstDedupAux seen l ↔ p ∈ l ∧ p ∉ seen := by
  intro l
  induction l with
  | nil =>
    intro seen
    simp [firstDedupAux]
  | cons q rest ih =>
    intro seen
    by_cases hq : q ∈ seen
    · rw [firstDedupAux, if_pos hq, ih seen]
      constructor
      · intro ⟨h1, h2⟩
        exact ⟨List.mem_cons_of_mem q h1, h2⟩
      · intro ⟨h1, h2⟩
        rcases List.mem_cons.1 h1 with rfl | h1'
        · exact absurd hq h2
        · exact ⟨h1', h2⟩
    · rw [firstDedupAux, if_neg hq]
      simp only [List.mem_cons, ih (q :: seen)]
      constructor
      · rintro (rfl | ⟨h1, h2⟩)
        · exact ⟨Or.inl rfl, hq⟩
        · exact ⟨Or.inr h1, fun hc => h2 (Or.inr hc)⟩
      · rintro ⟨hor, h2⟩
        rcases hor with rfl | h1
        · exact Or.inl rfl
        · by_cases hpq : p = q
          · exact Or.inl hpq
          · refine Or.inr ⟨h1, ?_⟩
            intro hc
            rcases hc with hc1 | hc2
            · exact hpq hc1
            · exact h2 hc2

theorem mem_firstDedup (p : String) (l : List String) : p ∈ firstDedup l ↔ p ∈ l := by
  rw [firstDedup, mem_firstDedupAux]
  simp

/-- `Indexer.getMaxId`: the maximum numeric chunk id, `-1` when none.
`Number(d.id)` is modelled as decimal parsing; ids written by the indexer are
always decimal numerals. -/
def getMaxId (docs : List Doc) : Int :=
  docs.foldl
    (fun m d =>
      match d.id.toNat? with
      | some n => if (n : Int) > m then (n : Int) else m
      | none => m)
    (-1)

/-- `content.split(/\r?\n/).length`. -/
def lineCountOf : List Char → Nat
  | [] => 1
  | '\r' :: '\n' :: rest => 1 + lineCountOf rest
  | '\n' :: rest => 1 + lineCountOf rest
  | _ :: rest => lineCountOf rest

/-- The backwards splice loop `for (i = docs.length-1; ...) if (path === r) splice`:
removes every chunk of one path, preserving the order of the rest. -/
def removePath (docs : List Doc) (p : String) : List Doc :=
  docs.filter (fun d => d.path != p)

/-- Paths present among loaded chunks but absent from the fresh discovery. -/
def removedPaths (docs : List Doc) (current : List (String × Int)) : List String :=
  (firstDedup (docs.map Doc.path)).filter (fun p => (current.lookup p).isNone)

/-- One step of the changed/new-file detection loop over `currentMap.entries()`:
`existingDocs = docsByFile.get(rel)` is `docs.filter` on the original corpus,
and a size mismatch purges that path's chunks before marking it changed. -/
def changedStep (docs : List Doc) (acc : List Doc × List (String × Int))
    (fi : String × Int) : List Doc × List (String × Int) :=
  match docs.filter (fun d => d.path == fi.1) with
  | [] => (acc.1, acc.2 ++ [fi])
  | d0 :: _ => if d0.fileSize != fi.2 then (removePath acc.1 fi.1, acc.2 ++ [fi]) else acc

/-- `for (let idx = 0; idx < chunks.length; idx++) { ... push(...) }`:
ingest one changed file's chunks, threading `idCounter`. -/
def ingestChunks (embed : List Char → List Nat) (rel : String) (fsize : Int) (lc : Int) :
    List (List Char) → Nat → Int → List Doc × Int
  | [], _, idc => ([], idc)
  | t :: rest, idx, idc =>
    if t.isEmpty then ingestChunks embed rel fsize lc rest (idx + 1) idc
    else
      match ingestChunks embed rel fsize lc rest (idx + 1) (idc + 1) with
      | (ds, idc2) =>
        (⟨toString idc, rel, (idx : Int), String.mk t, fsize, lc, some (embed t)⟩ :: ds, idc2)

/-- One step of the `for (const file of changed)` re-embedding loop. -/
def reingestStep (read : String → Option (List Char)) (embed : List Char → List Nat)
    (size overlap : Nat) (acc : List Doc × Int) (fi : String × Int) : List Doc × Int :=
  match read fi.1 with
  | none => acc
  | some content =>
    match ingestChunks embed fi.1 fi.2 (Int.ofNat (lineCountOf content))
        (splitChunks content size overlap) 0 acc.2 with
    | (ds, idc2) => (acc.1 ++ ds, idc2)

/-- `Indexer.incrementalUpdate`, as a function from the loaded corpus and the
fresh discovery to the updated corpus. -/
def incrementalUpdate (docs : List Doc) (current : List (String × Int))
    (read : String → Option (List Char)) (embed : List Char → List Nat)
    (size overlap : Nat) : List Doc :=
  let removed := removedPaths docs current
  let docs1 := removed.foldl removePath docs
  let res := current.foldl (changedStep docs) (docs1, [])
  if removed.isEmpty && res.2.isEmpty then docs
  else
    (res.2.foldl (reingestStep read embed size overlap) (res.1, getMaxId res.1 + 1)).1

theorem incrementalUpdate_eq (docs : List Doc) (current : List (String × Int))
    (read : String → Option (List Char)) (embed : List Char → List Nat) (size overlap : Nat) :
    incrementalUpdate docs current read embed size overlap =
      if (removedPaths docs current).isEmpty
          && (current.foldl (changedStep docs)
              ((removedPaths docs current).foldl removePath docs, [])).2.isEmpty then docs
      else
        ((current.foldl (changedStep docs)
            ((removedPaths docs current).foldl removePath docs, [])).2.foldl
          (reingestStep read embed size overlap)
          ((current.foldl (changedStep docs)
              ((removedPaths docs current).foldl removePath docs, [])).1,
           getMaxId (current.foldl (changedStep docs)
              ((removedPaths docs current).foldl removePath docs, [])).1 + 1)).1 := rfl

theorem ingestChunks_path (embed : List Char → List Nat) (rel : String) (fsize lc : Int) :
    ∀ chunks idx idc, ∀ d ∈ (ingestChunks embed rel fsize lc chunks idx idc).1, d.path = rel := by
  intro chunks
  induction chunks with
  | nil =>
    intro idx idc d hd
    exact absurd hd (List.not_mem_nil d)
  | cons t rest ih =>
    intro idx idc d hd
    by_cases ht : t.isEmpty
    · rw [show ingestChunks embed rel fsize lc (t :: rest) idx idc
          = ingestChunks embed rel fsize lc rest (idx + 1) idc from by
        rw [ingestChunks, if_pos ht]] at hd
      exact ih (idx + 1) idc d hd
    · rw [show ingestChunks embed rel fsize lc (t :: rest) idx idc
          = (⟨toString idc, rel, (idx : Int), String.mk t, fsize, lc, some (embed t)⟩
              :: (ingestChunks embed rel fsize lc rest (idx + 1) (idc + 1)).1,
             (ingestChunks embed rel fsize lc rest (idx + 1) (idc + 1)).2) from by
        rw [ingestChunks, if_neg ht]] at hd
      rcases List.mem_cons.1 hd with rfl | hd'
      · rfl
      · exact ih (idx + 1) (idc + 1) d hd'

theorem filter_removePath_self (l : List Doc) (p : String) :
    (removePath l p).filter (fun d => d.path == p) = [] := by
  rw [removePath, List.filter_filter]
  rw [List.filter_eq_nil_iff]
  intro d _
  simp [bne]

theorem filter_removePath_ne (l : List Doc) (p q : String) (hne : q ≠ p) :
    (removePath l q).filter (fun d => d.path == p) = l.filter (fun d => d.path == p) := by
  rw [removePath, List.filter_filter]
  apply List.filter_congr
  intro d _
  by_cases hd : d.path = p
  · have h1 : (d.path == p) = true := beq_iff_eq.2 hd
    have h2 : (d.path != q) = true := by
      rw [bne_iff_ne, hd]
      exact Ne.symm hne
    rw [h1, h2]
    rfl
  · have h1 : (d.path == p) = false := beq_eq_false_iff_ne.2 hd
    rw [h1]
    simp

theorem filter_eq_nil_of_sublist {l l' : List Doc} {F : Doc → Bool} (hsub : l' <+ l)
    (h : l.filter F = []) : l'.filter F = [] := by
  have hs := hsub.filter F
  rw [h] at hs
  exact List.sublist_nil.1 hs

theorem foldl_removePath_sublist :
    ∀ (rs : List String) (l : List Doc), (rs.foldl removePath l) <+ l := by
  intro rs
  induction rs with
  | nil => intro l; exact List.Sublist.refl l
  | cons r rest ih =>
    intro l
    rw [List.foldl_cons]
    exact (ih (removePath l r)).trans (List.filter_sublist l)

theorem foldl_removePath_filter_nil (p : String) :
    ∀ (removed : List String) (docs : List Doc), p ∈ removed →
      (removed.foldl removePath docs).filter (fun d => d.path == p) = [] := by
  intro removed
  induction removed with
  | nil =>
    intro docs h
    exact absurd h (List.not_mem_nil p)
  | cons r rest ih =>
    intro docs hmem
    rw [List.foldl_cons]
    rcases List.mem_cons.1 hmem with rfl | h
    · exact filter_eq_nil_of_sublist (foldl_removePath_sublist rest (removePath docs p))
        (filter_removePath_self docs p)
    · exact ih (removePath docs r) h

theorem foldl_removePath_filter_ne (p : String) :
    ∀ (removed : List String) (docs : List Doc), (∀ q ∈ removed, q ≠ p) →
      (removed.foldl removePath docs).filter (fun d => d.path == p)
        = docs.filter (fun d => d.path == p) := by
  intro removed
  induction removed with
  | nil =>
    intro docs _
    rfl
  | cons r rest ih =>
    intro docs hq
    rw [List.foldl_cons]
    rw [ih (removePath docs r) (fun x hx => hq x (by simp [hx]))]
    exact filter_removePath_ne docs p r (hq r (by simp))

theorem changedStep_fst_sublist (docs : List Doc) (acc : List Doc × List (String × Int))
    (fi : String × Int) : (changedStep docs acc fi).1 <+ acc.1 := by
  unfold changedStep
  cases docs.filter (fun d => d.path == fi.1) with
  | nil => exact List.Sublist.refl _
  | cons d0 ds =>
    dsimp only
    by_cases hsz : (d0.fileSize != fi.2) = true
    · rw [if_pos hsz]
      exact List.filter_sublist acc.1
    · rw [if_neg hsz]

theorem changedStep_snd (docs : List Doc) (acc : List Doc × List (String × Int))
    (fi : String × Int) : ∀ q ∈ (changedStep docs acc fi).2, q ∈ acc.2 ∨ q = fi := by
  unfold changedStep
  cases docs.filter (fun d => d.path == fi.1) with
  | nil =>
    intro q hq
    rcases List.mem_append.1 hq with h | h
    · exact Or.inl h
    · exact Or.inr (List.mem_singleton.1 h)
  | cons d0 ds =>
    dsimp only
    by_cases hsz : (d0.fileSize != fi.2) = true
    · rw [if_pos hsz]
      intro q hq
      rcases List.mem_append.1 hq with h | h
      · exact Or.inl h
      · exact Or.inr (List.mem_singleton.1 h)
    · rw [if_neg hsz]
      intro q hq
      exact Or.inl hq

theorem changedStepFold_shape (docs : List Doc) :
    ∀ (cur : List (String × Int)) (acc : List Doc × List (String × Int)),
      ((cur.foldl (changedStep docs) acc).1 <+ acc.1)
      ∧ (∀ q ∈ (cur.foldl (changedStep docs) acc).2, q ∈ acc.2 ∨ q ∈ cur) := by
  intro cur
  induction cur with
  | nil =>
    intro acc
    exact ⟨List.Sublist.refl _, fun q hq => Or.inl hq⟩
  | cons fi cur' ih =>
    intro acc
    rw [List.foldl_cons]
    obtain ⟨ih1, ih2⟩ := ih (changedStep docs acc fi)
    refine ⟨ih1.trans (changedStep_fst_sublist docs acc fi), ?_⟩
    intro q hq
    rcases ih2 q hq with h | h
    · rcases changedStep_snd docs acc fi q h with h2 | h2
      · exact Or.inl h2
      · exact Or.inr (by simp [h2])
    · exact Or.inr (List.mem_cons_of_mem fi h)

theorem changedStepFold_preserve (docs : List Doc) (p : String) (sz : Int) (d0 : Doc)
    (rest : List Doc) (hfilter : docs.filter (fun d => d.path == p) = d0 :: rest)
    (hsz : d0.fileSize = sz) :
    ∀ (cur : List (String × Int)) (acc : List Doc × List (String × Int)),
      (∀ e ∈ cur, e.1 = p → e.2 = sz) →
      ((cur.foldl (changedStep docs) acc).1.filter (fun d => d.path == p)
          = acc.1.filter (fun d => d.path == p))
      ∧ (∀ q ∈ (cur.foldl (changedStep docs) acc).2, q.1 = p → q ∈ acc.2) := by
  intro cur
  induction cur with
  | nil =>
    intro acc _
    exact ⟨rfl, fun q hq _ => hq⟩
  | cons fi cur' ih =>
    intro acc hcur
    rw [List.foldl_cons]
    have hcur' : ∀ e ∈ cur', e.1 = p → e.2 = sz := fun e he hp => hcur e (by simp [he]) hp
    by_cases hfi : fi.1 = p
    · have hacc : changedStep docs acc fi = acc := by
        unfold changedStep
        rw [show docs.filter (fun d => d.path == fi.1) = d0 :: rest from by
          rw [hfi]
          exact hfilter]
        dsimp only
        have hb : (d0.fileSize != fi.2) = false := by
          rw [bne_eq_false_iff_eq, hsz]
          exact (hcur fi (by simp) hfi).symm
        rw [hb]
        simp
      rw [hacc]
      exact ih acc hcur'
    · obtain ⟨ih1, ih2⟩ := ih (changedStep docs acc fi) hcur'
      refine ⟨?_, ?_⟩
      · rw [ih1]
        unfold changedStep
        cases docs.filter (fun d => d.path == fi.1) with
        | nil => rfl
        | cons e0 es =>
          dsimp only
          by_cases hsz2 : (e0.fileSize != fi.2) = true
          · rw [if_pos hsz2]
            exact filter_removePath_ne acc.1 p fi.1 hfi
          · rw [if_neg hsz2]
      · intro q hq hqp
        have hq2 := ih2 q hq hqp
        rcases changedStep_snd docs acc fi q hq2 with h | rfl
        · exact h
        · exact absurd hqp hfi

theorem lookup_none_forall (p : String) :
    ∀ (cur : List (String × Int)), cur.lookup p = none → ∀ e ∈ cur, e.1 ≠ p := by
  intro cur
  induction cur with
  | nil =>
    intro _ e he
    exact absurd he (List.not_mem_nil e)
  | cons kv rest ih =>
    obtain ⟨k, v⟩ := kv
    intro hl e he
    rw [List.lookup] at hl
    cases hk : (p == k) with
    | true =>
      rw [hk] at hl
      exact absurd hl (by simp)
    | false =>
      rw [hk] at hl
      rcases List.mem_cons.1 he with rfl | he'
      · exact fun hc => beq_eq_false_iff_ne.1 hk hc.symm
      · exact ih hl e he'

theorem lookup_unique (p : String) (sz : Int) :
    ∀ (cur : List (String × Int)), (cur.map Prod.fst).Nodup → cur.lookup p = some sz →
      ∀ e ∈ cur, e.1 = p → e.2 = sz := by
  intro cur
  induction cur with
  | nil =>
    intro _ _ e he
    exact absurd he (List.not_mem_nil e)
  | cons kv rest ih =>
    obtain ⟨k, v⟩ := kv
    intro hnd hl e he hep
    rw [List.map_cons, List.nodup_cons] at hnd
    rw [List.lookup] at hl
    cases hk : (p == k) with
    | true =>
      rw [hk] at hl
      have hv : v = sz := by
        simp only [Option.some.injEq] at hl
        exact hl
      rcases List.mem_cons.1 he with rfl | he'
      · exact hv
      · exfalso
        apply hnd.1
        rw [List.mem_map]
        refine ⟨e, he', ?_⟩
        rw [hep]
        exact beq_iff_eq.1 hk
    | false =>
      rw [hk] at hl
      rcases List.mem_cons.1 he with rfl | he'
      · exact absurd hep.symm (beq_eq_false_iff_ne.1 hk)
      · exact ih hnd.2 hl e he' hep

theorem reingestFold_filter (read : String → Option (List Char))
    (embed : List Char → List Nat) (size overlap : Nat) (p : String) :
    ∀ (cs : List (String × Int)) (acc : List Doc × Int), (∀ fi ∈ cs, fi.1 ≠ p) →
      ((cs.foldl (reingestStep read embed size overlap) acc).1.filter (fun d => d.path == p)
        = acc.1.filter (fun d => d.path == p)) := by
  intro cs
  induction cs with
  | nil =>
    intro acc _
    rfl
  | cons fi cs' ih =>
    intro acc hcs
    rw [List.foldl_cons]
    rw [ih _ (fun x hx => hcs x (by simp [hx]))]
    unfold reingestStep
    cases read fi.1 with
    | none => rfl
    | some content =>
      have hpaths := ingestChunks_path embed fi.1 fi.2 (Int.ofNat (lineCountOf content))
        (splitChunks content size overlap) 0 acc.2
      show ((acc.1 ++ (ingestChunks embed fi.1 fi.2 (Int.ofNat (lineCountOf content))
          (splitChunks content size overlap) 0 acc.2).1).filter (fun d => d.path == p))
        = acc.1.filter (fun d => d.path == p)
      rw [List.filter_append]
      have hnil : ((ingestChunks embed fi.1 fi.2 (Int.ofNat (lineCountOf content))
          (splitChunks content size overlap) 0 acc.2).1).filter (fun d => d.path == p) = [] := by
        rw [List.filter_eq_nil_iff]
        intro d hd
        rw [hpaths d hd]
        simp [hcs fi (by simp)]
      rw [hnil, List.append_nil]

/-- **C6, claim theorem.**  After the incremental update pass: (a) no chunk
survives for a path that occurred among the loaded chunks but is absent from
the fresh discovery; (b) for a discovered file whose stored size matches its
current size, the corpus's chunk sequence for that path is exactly the loaded
one — same ids, texts, file sizes, line counts and embeddings, in order. -/
theorem incremental_update_frame (docs : List Doc) (current : List (String × Int))
    (read : String → Option (List Char)) (embed : List Char → List Nat) (size overlap : Nat)
    (hnodup : (current.map Prod.fst).Nodup) :
    (∀ p, (∃ d ∈ docs, d.path = p) → current.lookup p = none →
        (incrementalUpdate docs current read embed size overlap).filter
          (fun d => d.path == p) = [])
    ∧ (∀ p sz d0 rest, current.lookup p = some sz →
        docs.filter (fun d => d.path == p) = d0 :: rest → d0.fileSize = sz →
        (incrementalUpdate docs current read embed size overlap).filter (fun d => d.path == p)
          = docs.filter (fun d => d.path == p)) := by
  constructor
  · intro p hex hlook
    have hmem : p ∈ removedPaths docs current := by
      rw [removedPaths, List.mem_filter]
      constructor
      · rw [mem_firstDedup]
        obtain ⟨d, hd, hdp⟩ := hex
        rw [List.mem_map]
        exact ⟨d, hd, hdp⟩
      · rw [hlook]
        rfl
    have hne : (removedPaths docs current).isEmpty = false := by
      rcases hre : (removedPaths docs current).isEmpty with _ | _
      · rfl
      · exfalso
        rw [List.isEmpty_iff.1 hre] at hmem
        exact absurd hmem (List.not_mem_nil p)
    rw [incrementalUpdate_eq]
    rw [if_neg (by rw [hne]; simp)]
    have hforall : ∀ fi ∈ (current.foldl (changedStep docs)
        ((removedPaths docs current).foldl removePath docs, [])).2, fi.1 ≠ p := by
      intro fi hfi
      rcases (changedStepFold_shape docs current
          ((removedPaths docs current).foldl removePath docs, [])).2 fi hfi with h | h
      · exact absurd h (List.not_mem_nil fi)
      · exact lookup_none_forall p current hlook fi h
    rw [reingestFold_filter read embed size overlap p _ _ hforall]
    have hd1 : ((removedPaths docs current).foldl removePath docs).filter
        (fun d => d.path == p) = [] :=
      foldl_removePath_filter_nil p (removedPaths docs current) docs hmem
    exact filter_eq_nil_of_sublist (changedStepFold_shape docs current
      ((removedPaths docs current).foldl removePath docs, [])).1 hd1
  · intro p sz d0 rest hlook hfilter hsz
    rw [incrementalUpdate_eq]
    have hnr : ∀ q ∈ removedPaths docs current, q ≠ p := by
      intro q hq hc
      subst hc
      rw [removedPaths, List.mem_filter, hlook] at hq
      exact absurd hq.2 (by simp)
    have hd1 : ((removedPaths docs current).foldl removePath docs).filter (fun d => d.path == p)
        = docs.filter (fun d => d.path == p) :=
      foldl_removePath_filter_ne p (removedPaths docs current) docs hnr
    have hentry : ∀ e ∈ current, e.1 = p → e.2 = sz := lookup_unique p sz current hnodup hlook
    obtain ⟨hpres1, hpres2⟩ := changedStepFold_preserve docs p sz d0 rest hfilter hsz current
      ((removedPaths docs current).foldl removePath docs, []) hentry
    by_cases hif : ((removedPaths docs current).isEmpty
        && (current.foldl (changedStep docs)
            ((removedPaths docs current).foldl removePath docs, [])).2.isEmpty) = true
    · rw [if_pos hif]
    · rw [if_neg hif]
      have hforall : ∀ fi ∈ (current.foldl (changedStep docs)
          ((removedPaths docs current).foldl removePath docs, [])).2, fi.1 ≠ p := by
        intro fi hfi hc
        exact absurd (hpres2 fi hfi hc) (List.not_mem_nil fi)
      rw [reingestFold_filter read embed size overlap p _ _ hforall]
      rw [hpres1]
      exact hd1

/-- Witness for C6: one file on disk unchanged (`a.ts`, size 5), one loaded
file (`b.ts`) deleted from disk; its chunks are purged and `a.ts`'s chunk is
untouched. -/
theorem incremental_update_frame_witness :
    (incrementalUpdate
        [⟨"0", "a.ts", 0, "aaa", 5, 1, some [1]⟩, ⟨"1", "b.ts", 0, "bbb", 3, 1, some [2]⟩]
        [("a.ts", 5)] (fun _ => none) (fun _ => []) 800 120).filter
      (fun d => d.path == "b.ts") = []
    ∧ (incrementalUpdate
        [⟨"0", "a.ts", 0, "aaa", 5, 1, some [1]⟩, ⟨"1", "b.ts", 0, "bbb", 3, 1, some [2]⟩]
        [("a.ts", 5)] (fun _ => none) (fun _ => []) 800 120).filter
      (fun d => d.path == "a.ts")
      = [⟨"0", "a.ts", 0, "aaa", 5, 1, some [1]⟩] := by
  have h := incremental_update_frame
    [⟨"0", "a.ts", 0, "aaa", 5, 1, some [1]⟩, ⟨"1", "b.ts", 0, "bbb", 3, 1, some [2]⟩]
    [("a.ts", 5)] (fun _ => none) (fun _ => []) 800 120 (by decide)
  constructor
  · exact h.1 "b.ts" ⟨⟨"1", "b.ts", 0, "bbb", 3, 1, some [2]⟩, by decide, rfl⟩ rfl
  · exact h.2 "a.ts" 5 ⟨"0", "a.ts", 0, "aaa", 5, 1, some [1]⟩ [] rfl (by decide) rfl

/-! ### PDF extraction cache (PdfExtractor)

`PdfCacheEntry`, `getCachedText` and `getFromCache` follow the
`PdfExtractor` class: the unified cache store maps absolute paths to
entries; `getCachedText` returns the entry only when it exists, its
recorded `pdfSize` equals the current file size, and its `text` is truthy
(a nonempty string); `getFromCache` projects out the text. -/

structure PdfCacheEntry where
  pdfPath : String
  pdfSize : Int
  extractedAt : String
  text : String
  pageCount : Int
deriving DecidableEq

def getCachedText (entries : List (String × PdfCacheEntry)) (pdfAbsPath : String)
    (pdfSize : Int) : Option PdfCacheEntry :=
  match entries.lookup pdfAbsPath with
  | none => none
  | some entry =>
    if entry.pdfSize == pdfSize && entry.text != "" then some entry else none

def getFromCache (entries : List (String × PdfCacheEntry)) (pdfAbsPath : String)
    (pdfSize : Int) : Option String :=
  match getCachedText entries pdfAbsPath pdfSize with
  | some cached => some cached.text
  | none => none

inductive ReadFileResult where
  | ok (text : String)
  | notIndexed
deriving DecidableEq

/-- Modelled from the spec: the ReadRange (read_file) dispatch for a file
served by the extraction cache consults the cache through `getFromCache`
(which is translated from the source); a hit returns the cached text, a
miss or stale entry fails with the distinct NotIndexed condition instead of
extracting synchronously or returning raw bytes. -/
def readFilePdf (entries : List (String × PdfCacheEntry)) (pdfAbsPath : String)
    (pdfSize : Int) : ReadFileResult :=
  match getFromCache entries pdfAbsPath pdfSize with
  | some text => ReadFileResult.ok text
  | none => ReadFileResult.notIndexed

/-- **C9, counterexample to the claim.**  A cache entry whose recorded size
equals the current file size but whose extracted text is empty is rejected
by the cache-validity check (`entry.text` is falsy), so the read fails with
NotIndexed instead of returning the cached (empty) text as the claim's
validity condition — size match alone — demands. -/
theorem readFilePdf_claim_counterexample :
    getFromCache [("/r/docs/a.pdf", ⟨"docs/a.pdf", 100, "2024-01-01", "", 0⟩)]
        "/r/docs/a.pdf" 100
      ≠ some (PdfCacheEntry.text ⟨"docs/a.pdf", 100, "2024-01-01", "", 0⟩)
    ∧ readFilePdf [("/r/docs/a.pdf", ⟨"docs/a.pdf", 100, "2024-01-01", "", 0⟩)]
        "/r/docs/a.pdf" 100
      = ReadFileResult.notIndexed := by
  constructor
  · intro h
    exact absurd h (by decide)
  · rfl

/-- **C9, claim theorem (amended).**  For every cache store, path and
current size: a cache entry for the path whose recorded size equals the
current size and whose text is nonempty makes the read return exactly that
cached text; a missing entry fails with NotIndexed; an entry whose size
differs or whose text is empty (stale) also fails with NotIndexed — the
read never extracts and never returns anything but the cached text. -/
theorem read_file_pdf_spec (entries : List (String × PdfCacheEntry)) (p : String) (sz : Int) :
    (∀ e, entries.lookup p = some e → e.pdfSize = sz → e.text ≠ "" →
        readFilePdf entries p sz = ReadFileResult.ok e.text)
    ∧ (entries.lookup p = none → readFilePdf entries p sz = ReadFileResult.notIndexed)
    ∧ (∀ e, entries.lookup p = some e → (e.pdfSize ≠ sz ∨ e.text = "") →
        readFilePdf entries p sz = ReadFileResult.notIndexed) := by
  refine ⟨?_, ?_, ?_⟩
  · intro e hl hsz htx
    unfold readFilePdf getFromCache getCachedText
    rw [hl]
    dsimp only
    rw [if_pos]
    simp only [Bool.and_eq_true, beq_iff_eq, bne_iff_ne]
    exact ⟨hsz, htx⟩
  · intro hl
    unfold readFilePdf getFromCache getCachedText
    rw [hl]
  · intro e hl hbad
    unfold readFilePdf getFromCache getCachedText
    rw [hl]
    dsimp only
    rw [if_neg]
    simp only [Bool.and_eq_true, beq_iff_eq, bne_iff_ne, not_and]
    intro hsz htx
    rcases hbad with h | h
    · exact absurd hsz h
    · exact htx h

/-- Witness for C9: a valid entry (size 100, nonempty text) is returned; the
same store misses on an unknown path; an entry looked up at a stale size 99
fails with NotIndexed. -/
theorem read_file_pdf_spec_witness :
    readFilePdf [("/r/docs/a.pdf", ⟨"docs/a.pdf", 100, "2024-01-01", "hello", 1⟩)]
        "/r/docs/a.pdf" 100 = ReadFileResult.ok "hello"
    ∧ readFilePdf [("/r/docs/a.pdf", ⟨"docs/a.pdf", 100, "2024-01-01", "hello", 1⟩)]
        "/r/docs/b.pdf" 100 = ReadFileResult.notIndexed
    ∧ readFilePdf [("/r/docs/a.pdf", ⟨"docs/a.pdf", 100, "2024-01-01", "hello", 1⟩)]
        "/r/docs/a.pdf" 99 = ReadFileResult.notIndexed := by
  refine ⟨?_, ?_, ?_⟩
  · exact (read_file_pdf_spec [("/r/docs/a.pdf", ⟨"docs/a.pdf", 100, "2024-01-01", "hello", 1⟩)]
      "/r/docs/a.pdf" 100).1 ⟨"docs/a.pdf", 100, "2024-01-01", "hello", 1⟩ (by decide) rfl
      (by decide)
  · exact (read_file_pdf_spec [("/r/docs/a.pdf", ⟨"docs/a.pdf", 100, "2024-01-01", "hello", 1⟩)]
      "/r/docs/b.pdf" 100).2.1 (by decide)
  · exact (read_file_pdf_spec [("/r/docs/a.pdf", ⟨"docs/a.pdf", 100, "2024-01-01", "hello", 1⟩)]
      "/r/docs/a.pdf" 99).2.2 ⟨"docs/a.pdf", 100, "2024-01-01", "hello", 1⟩ (by decide)
      (Or.inl (by decide))

end RagServer
